import Mathlib

/-!
Verification of the pageindex document-tree library.

The Lean definitions below are a shallow embedding of the Rust sources:
`src/tree.rs` (the `Node` / `DocumentTree` data model), `src/parser.rs`
(`parse_markdown`, `parse_heading`, `build_tree`) and `src/traversal.rs`
(`get_node`, `get_children`, `build_breadcrumb`, `get_tree_outline`,
`outline_node`).  Rust strings are modelled as Lean `String`; the string
primitives used by the code (`lines`, `trim`, `split`, `join`,
`starts_with`, `take_while`, `to_string` on integers) are implemented
below on the underlying character lists so that every definition is
executable and kernel-reducible.  Out-of-bounds vector indexing (a Rust
panic) is modelled by `Option`, returning `none` exactly where the Rust
code would panic.
-/

namespace PageIndex

/-! ## Character-list string primitives -/

/-- Whitespace test used by `trim`; covers the ASCII whitespace that
`char::is_whitespace` recognises. -/
def isWs (c : Char) : Bool :=
  c = ' ' || c = '\t' || c = '\n' || c = '\r'

/-- Model of Rust `str::trim`: drop whitespace from both ends. -/
def trimChars (l : List Char) : List Char :=
  ((l.dropWhile isWs).reverse.dropWhile isWs).reverse

def rustTrim (s : String) : String :=
  ⟨trimChars s.data⟩

/-- Split a character list at every occurrence of `sep`; the result is
always nonempty, and empty segments are kept (Rust `str::split`). -/
def splitOnChar (sep : Char) : List Char → List (List Char)
  | [] => [[]]
  | c :: cs =>
    if c = sep then [] :: splitOnChar sep cs
    else
      match splitOnChar sep cs with
      | [] => [[c]]
      | s :: ss => (c :: s) :: ss

/-- Join character lists with a single separator character (Rust
`[&str]::join` with a one-character separator). -/
def joinChar (sep : Char) : List (List Char) → List Char
  | [] => []
  | [s] => s
  | s :: ss => s ++ sep :: joinChar sep ss

/-- Model of `node_id.split('.')`. -/
def splitDots (s : String) : List String :=
  (splitOnChar '.' s.data).map (fun l => ⟨l⟩)

/-- Model of `parts.join(".")`. -/
def joinDots (ss : List String) : String :=
  ⟨joinChar '.' (ss.map String.data)⟩

/-- Model of `lines.join("\n")`. -/
def joinNL (ss : List String) : String :=
  ⟨joinChar '\n' (ss.map String.data)⟩

/-- Model of Rust `str::lines`: split on the newline character, drop a
final empty segment (produced by a trailing newline), and strip one
trailing carriage return from each line. -/
def rustLines (s : String) : List String :=
  let parts := splitOnChar '\n' s.data
  let parts := if parts.getLast? = some [] then parts.dropLast else parts
  parts.map (fun l => if l.getLast? = some '\r' then ⟨l.dropLast⟩ else ⟨l⟩)

/-- Decimal digit character. -/
def digitChar (n : Nat) : Char :=
  Char.ofNat (48 + n)

/-- Fuel-indexed decimal printer for natural numbers. -/
def natChars : Nat → Nat → List Char
  | 0, _ => []
  | fuel + 1, n =>
    if n < 10 then [digitChar n]
    else natChars fuel (n / 10) ++ [digitChar (n % 10)]

/-- Model of Rust `usize::to_string`. -/
def natToString (n : Nat) : String :=
  ⟨natChars (n + 1) n⟩

/-! ## Tree model (`src/tree.rs`) -/

/-- The `Node` struct of `src/tree.rs`. -/
structure Node where
  node_id : String
  title : String
  depth : Nat
  text : String
  summary : Option String
  children : List Node
deriving Repr

instance : Inhabited Node := ⟨⟨"", "", 0, "", none, []⟩⟩

/-- `Node::new` from `src/tree.rs`. -/
def Node.new (node_id title : String) (depth : Nat) (text : String) : Node :=
  ⟨node_id, title, depth, text, none, []⟩

theorem Node.sizeOf_children_lt (n : Node) : sizeOf n.children < sizeOf n := by
  cases n with
  | mk a b c d e f => simp only [Node.mk.sizeOf_spec]; omega

theorem Node.sizeOf_mem_children {c n : Node} (h : c ∈ n.children) :
    sizeOf c < sizeOf n := by
  have h1 : sizeOf c < sizeOf n.children := List.sizeOf_lt_of_mem h
  have h2 := Node.sizeOf_children_lt n
  omega

mutual

/-- `Node::find` from `src/tree.rs`: preorder search by exact id equality. -/
def Node.find (n : Node) (node_id : String) : Option Node :=
  if n.node_id = node_id then some n
  else Node.findInList n.children node_id
termination_by sizeOf n
decreasing_by exact Node.sizeOf_children_lt n

/-- The `for child in &self.children` loop of `Node::find`. -/
def Node.findInList (ns : List Node) (node_id : String) : Option Node :=
  match ns with
  | [] => none
  | c :: cs =>
    match Node.find c node_id with
    | some found => some found
    | none => Node.findInList cs node_id
termination_by sizeOf ns
decreasing_by all_goals (simp <;> omega)

end

mutual

/-- `Node::all_ids` from `src/tree.rs`. -/
def Node.all_ids (n : Node) : List String :=
  n.node_id :: Node.allIdsList n.children
termination_by sizeOf n
decreasing_by exact Node.sizeOf_children_lt n

/-- The extension loop of `Node::all_ids`. -/
def Node.allIdsList (ns : List Node) : List String :=
  match ns with
  | [] => []
  | c :: cs => Node.all_ids c ++ Node.allIdsList cs
termination_by sizeOf ns
decreasing_by all_goals (simp <;> omega)

end

mutual

/-- `Node::flatten` from `src/tree.rs`. -/
def Node.flatten (n : Node) : List Node :=
  n :: Node.flattenList n.children
termination_by sizeOf n
decreasing_by exact Node.sizeOf_children_lt n

/-- The extension loop of `Node::flatten`. -/
def Node.flattenList (ns : List Node) : List Node :=
  match ns with
  | [] => []
  | c :: cs => Node.flatten c ++ Node.flattenList cs
termination_by sizeOf ns
decreasing_by all_goals (simp <;> omega)

end

/-- The `DocumentTree` struct of `src/tree.rs`. -/
structure DocumentTree where
  doc_id : String
  title : String
  description : Option String
  root : Node
deriving Repr

/-- `DocumentTree::new` from `src/tree.rs`. -/
def DocumentTree.new (doc_id title : String) (root : Node) : DocumentTree :=
  ⟨doc_id, title, none, root⟩

/-- `DocumentTree::find_node`. -/
def DocumentTree.find_node (t : DocumentTree) (node_id : String) : Option Node :=
  t.root.find node_id

/-- `DocumentTree::all_node_ids`: excludes the synthetic root node used
when a document has multiple top-level headings. -/
def DocumentTree.all_node_ids (t : DocumentTree) : List String :=
  if t.root.node_id = "0" then Node.allIdsList t.root.children
  else t.root.all_ids

/-- `DocumentTree::all_nodes`. -/
def DocumentTree.all_nodes (t : DocumentTree) : List Node :=
  if t.root.node_id = "0" then Node.flattenList t.root.children
  else t.root.flatten

/-! ## Parser (`src/parser.rs`) -/

/-- A segmentation block `(depth, title, body)` as pushed onto `blocks`
in `parse_markdown`. -/
abbrev Block := Nat × String × String

/-- `parse_heading` from `src/parser.rs`: a line is a heading iff it
starts with the marker character and the text after the markers is
nonempty once trimmed. -/
def parse_heading (line : String) : Option (Nat × String) :=
  if line.data.head? = some '#' then
    let depth := (line.data.takeWhile (fun c => c = '#')).length
    let title := rustTrim ⟨line.data.drop depth⟩
    if title = "" then none else some (depth, title)
  else none

/-- The mutable local state of the segmentation loop in `parse_markdown`. -/
structure SegState where
  blocks : List Block
  doc_title : String
  current_depth : Nat
  current_title : String
  current_body : List String
  started : Bool
deriving Repr

/-- Closing the open section: the `blocks.push((current_depth,
current_title, current_body.join("\n").trim()))` statement. -/
def SegState.closeBlock (st : SegState) : List Block :=
  st.blocks ++ [(st.current_depth, st.current_title, rustTrim (joinNL st.current_body))]

/-- One iteration of the `for line in markdown.lines()` loop of
`parse_markdown`. -/
def segLine (st : SegState) (line : String) : SegState :=
  match parse_heading line with
  | some (depth, title) =>
    { blocks := if st.started then st.closeBlock else st.blocks
      doc_title := if st.started = false ∧ depth = 1 then title else st.doc_title
      current_depth := depth
      current_title := title
      current_body := []
      started := true }
  | none =>
    if st.started then { st with current_body := st.current_body ++ [line] } else st

/-- The whole segmentation loop. -/
def segRun (st : SegState) : List String → SegState
  | [] => st
  | l :: ls => segRun (segLine st l) ls

/-- Initial segmentation state of `parse_markdown`. -/
def segInit (doc_id : String) : SegState :=
  ⟨[], doc_id, 0, "", [], false⟩

/-- The final segmentation state for a document. -/
def segFinal (doc_id markdown : String) : SegState :=
  segRun (segInit doc_id) (rustLines markdown)

/-- The block list produced by the segmentation phase of
`parse_markdown`, including the final `if started` flush. -/
def segBlocks (doc_id markdown : String) : List Block :=
  let st := segFinal doc_id markdown
  if st.started then st.closeBlock else st.blocks

/-- The `doc_title` value at the end of the segmentation phase. -/
def segTitle (doc_id markdown : String) : String :=
  (segFinal doc_id markdown).doc_title

/-- The counter update of `build_tree`: `depth_counters[depth] += 1`
followed by zeroing every deeper counter.  The array access panics when
`depth` is out of bounds; the caller guards for that. -/
def stepCounters (counters : List Nat) (depth : Nat) : List Nat :=
  let counters := counters.set depth (counters.getD depth 0 + 1)
  counters.mapIdx (fun i c => if depth < i then 0 else c)

/-- The id formation of `build_tree`: join `depth_counters[1..=depth]`
with the dot separator. -/
def idFromCounters (counters : List Nat) (depth : Nat) : String :=
  joinDots (((counters.drop 1).take depth).map natToString)

/-- The `while node_stack.len() > 1` popping loop of `build_tree`.  The
stack is held as the top node plus the list of the nodes below it, so
the `len() > 1` guard is the nonemptiness of `rest`. -/
def popGe (top : Node) (rest : List Node) (depth : Nat) : Node × List Node :=
  match rest with
  | [] => (top, [])
  | next :: rest' =>
    if depth ≤ top.depth then
      popGe { next with children := next.children ++ [top] } rest' depth
    else (top, next :: rest')

/-- The final `while node_stack.len() > 1` drain of `build_tree`. -/
def drain (top : Node) : List Node → Node
  | [] => top
  | next :: rest => drain { next with children := next.children ++ [top] } rest

/-- The in-loop state of `build_tree`: the node stack and the per-depth
counter array. -/
structure BuildState where
  top : Node
  rest : List Node
  counters : List Nat
deriving Repr

/-- The synthetic placeholder root seeded into the node stack. -/
def rootNode : Node :=
  Node.new "0" "root" 0 ""

/-- Initial state of `build_tree`: the stack holds the placeholder root
and the ten counters are zero. -/
def buildInit : BuildState :=
  ⟨rootNode, [], List.replicate 10 0⟩

/-- One iteration of the block loop of `build_tree`.  `none` models the
index-out-of-bounds panic of `depth_counters[depth]` when `depth ≥ 10`. -/
def buildStep (st : BuildState) (b : Block) : Option BuildState :=
  if b.1 < 10 then
    let counters := stepCounters st.counters b.1
    let node := Node.new (idFromCounters counters b.1) b.2.1 b.1 b.2.2
    let popped := popGe st.top st.rest b.1
    some ⟨node, popped.1 :: popped.2, counters⟩
  else none

/-- The block loop of `build_tree`. -/
def runBlocks (st : BuildState) : List Block → Option BuildState
  | [] => some st
  | b :: bs =>
    match buildStep st b with
    | some st' => runBlocks st' bs
    | none => none

/-- `build_tree` from `src/parser.rs`: run the block loop, drain the
stack, and apply the single-child promotion rule. -/
def build_tree (blocks : List Block) : Option Node :=
  (runBlocks buildInit blocks).map (fun st =>
    let final_root := drain st.top st.rest
    if final_root.node_id = "0" ∧ final_root.children.length = 1 then
      final_root.children.headD final_root
    else final_root)

/-- `parse_markdown` from `src/parser.rs`.  `none` models the panic on a
heading nested deeper than the counter array. -/
def parse_markdown (doc_id markdown : String) : Option DocumentTree :=
  (build_tree (segBlocks doc_id markdown)).map
    (fun root => DocumentTree.new doc_id (segTitle doc_id markdown) root)


/-! ## Traversal (`src/traversal.rs`) -/

/-- The `TraversalResult` struct of `src/traversal.rs`. -/
structure TraversalResult where
  node_id : String
  title : String
  text : String
  summary : Option String
  depth : Nat
  breadcrumb : List String
deriving Repr

/-- `build_breadcrumb` from `src/traversal.rs`: for every prefix length
of the dot-split id, look the prefix up and keep the titles that are
found. -/
def build_breadcrumb (tree : DocumentTree) (node_id : String) : List String :=
  let parts := splitDots node_id
  (List.range' 1 parts.length).filterMap
    (fun i => (tree.find_node (joinDots (parts.take i))).map Node.title)

/-- `get_node` from `src/traversal.rs`. -/
def get_node (tree : DocumentTree) (node_id : String) : Option TraversalResult :=
  let breadcrumb := build_breadcrumb tree node_id
  (tree.find_node node_id).map (fun node =>
    { node_id := node.node_id
      title := node.title
      text := node.text
      summary := node.summary
      depth := node.depth
      breadcrumb := breadcrumb })

/-- `get_children` from `src/traversal.rs`. -/
def get_children (tree : DocumentTree) (node_id : String) : List (String × String) :=
  ((tree.find_node node_id).map
    (fun node => node.children.map (fun c => (c.node_id, c.title)))).getD []

/-- The `"  ".repeat(depth.saturating_sub(1))` indentation of
`outline_node`. -/
def indentOf (depth : Nat) : String :=
  ⟨(List.replicate (depth - 1) [' ', ' ']).flatten⟩

/-- One rendered outline line `"{indent}[{node_id}] {title}"`. -/
def outlineLine (n : Node) : String :=
  indentOf n.depth ++ "[" ++ n.node_id ++ "] " ++ n.title

mutual

/-- `outline_node` from `src/traversal.rs`, returning the pushed lines. -/
def outline_node (n : Node) : List String :=
  (if n.node_id = "0" then [] else [outlineLine n]) ++ outlineList n.children
termination_by sizeOf n
decreasing_by exact Node.sizeOf_children_lt n

/-- The `for child in &node.children` loop of `outline_node`. -/
def outlineList (ns : List Node) : List String :=
  match ns with
  | [] => []
  | c :: cs => outline_node c ++ outlineList cs
termination_by sizeOf ns
decreasing_by all_goals (simp <;> omega)

end

/-- `get_tree_outline` from `src/traversal.rs`. -/
def get_tree_outline (tree : DocumentTree) : String :=
  joinNL (outline_node tree.root)


/-! ## Spec-side definitions

These definitions follow the wording of the specification (`spec.md`)
rather than the Rust sources; they are compared with the source-derived
definitions in the refinement theorems below. -/

/-- Observable data of a node: `(node_id, title, depth, text)`. -/
abbrev NKey := String × String × Nat × String

/-- Key of a node. -/
def nkey (n : Node) : NKey :=
  (n.node_id, n.title, n.depth, n.text)

/-- Keys assigned to a block list by the source counter logic
(`stepCounters` / `idFromCounters`), in document order. -/
def annotate : List Nat → List Block → List NKey
  | _, [] => []
  | cs, (depth, title, body) :: bs =>
    let cs' := stepCounters cs depth
    (idFromCounters cs' depth, title, depth, body) :: annotate cs' bs

/-- Modelled from the spec (§4.1 step 2): "increment the counter at
`depth`; reset all counters at indices greater than `depth` to 0";
counters are an abstract per-depth map. -/
def specCounterStep (c : Nat → Nat) (depth : Nat) : Nat → Nat :=
  fun i => if i = depth then c depth + 1 else if depth < i then 0 else c i

/-- Modelled from the spec (§4.1 step 2): "form `node_id` by joining the
counters at indices `1..=depth` with `.`". -/
def specNodeId (c : Nat → Nat) (depth : Nat) : String :=
  joinDots (((List.range' 1 depth).map c).map natToString)

/-- Modelled from the spec (§4.1 step 2): the `node_id` assigned to each
block in document order. -/
def specAssignedIds : (Nat → Nat) → List Block → List String
  | _, [] => []
  | c, (depth, _, _) :: bs =>
    let c' := specCounterStep c depth
    specNodeId c' depth :: specAssignedIds c' bs

/-- Whether a depth `d` closes every open section: true when no section
is open, or when `d` is at most the depth of the shallowest open one. -/
def tlTake (m : Option Nat) (d : Nat) : Bool :=
  match m with
  | none => true
  | some mm => d ≤ mm

/-- The elements of a list that are minimal among all their predecessors
with respect to a measure, tracking the last retained measure. -/
def tlBy (dep : α → Nat) (m : Option Nat) : List α → List α
  | [] => []
  | a :: as =>
    if tlTake m (dep a) then a :: tlBy dep (some (dep a)) as
    else tlBy dep m as

/-- The retained-measure tracker of `tlBy` after a whole list. -/
def tlm (dep : α → Nat) (m : Option Nat) : List α → Option Nat
  | [] => m
  | a :: as =>
    if tlTake m (dep a) then tlm dep (some (dep a)) as
    else tlm dep m as

/-- The top-level blocks of a document: blocks no earlier block of which
is strictly shallower.  These are exactly the sections that are not
nested under any other section. -/
def topLevels (bs : List Block) : List Block :=
  tlBy (fun b => b.1) none bs

/-- A structured JSON-like value.  Modelled from the spec (§6): the
serialized form is "an object with fields"; `serde_json` itself is an
external collaborator and is not part of the sources. -/
inductive Json where
  | str (s : String)
  | num (n : Nat)
  | null
  | arr (elems : List Json)
  | obj (fields : List (String × Json))
deriving Repr

/-- Modelled from the spec (§6): absent `description`/`summary`
serialize as an explicit null marker. -/
def encodeOpt : Option String → Json
  | none => Json.null
  | some s => Json.str s

/-- Matching reader for `encodeOpt`. -/
def decodeOpt : Json → Option (Option String)
  | Json.null => some none
  | Json.str s => some (some s)
  | _ => none

theorem Node.sizeOf_pos (n : Node) : 0 < sizeOf n := by
  cases n with
  | mk a b c d e f => simp only [Node.mk.sizeOf_spec]; omega

mutual

/-- Modelled from the spec (§6): each node serializes to an object with
fields `node_id`, `title`, `depth`, `text`, `summary`, `children` in
this order. -/
def encodeNode (n : Node) : Json :=
  Json.obj
    [("node_id", Json.str n.node_id),
     ("title", Json.str n.title),
     ("depth", Json.num n.depth),
     ("text", Json.str n.text),
     ("summary", encodeOpt n.summary),
     ("children", Json.arr (encodeNodes n.children))]
termination_by sizeOf n
decreasing_by exact Node.sizeOf_children_lt n

/-- Serialization of a child array. -/
def encodeNodes (ns : List Node) : List Json :=
  match ns with
  | [] => []
  | c :: cs => encodeNode c :: encodeNodes cs
termination_by sizeOf ns
decreasing_by all_goals (simp <;> omega)

end

mutual

/-- Modelled from the spec (§6): the matching deserializer for
`encodeNode`. -/
def decodeNode (j : Json) : Option Node :=
  match j with
  | Json.obj
      [("node_id", Json.str node_id),
       ("title", Json.str title),
       ("depth", Json.num depth),
       ("text", Json.str text),
       ("summary", s),
       ("children", Json.arr cs)] =>
    match decodeOpt s, decodeNodes cs with
    | some summary, some children => some ⟨node_id, title, depth, text, summary, children⟩
    | _, _ => none
  | _ => none
termination_by sizeOf j
decreasing_by simp; omega

/-- Deserialization of a child array. -/
def decodeNodes (js : List Json) : Option (List Node) :=
  match js with
  | [] => some []
  | j :: rest =>
    match decodeNode j, decodeNodes rest with
    | some n, some ns => some (n :: ns)
    | _, _ => none
termination_by sizeOf js
decreasing_by all_goals (simp <;> omega)

end

/-- Modelled from the spec (§6): the serialized form of a whole tree,
an object with fields `doc_id`, `title`, `description`, `root`. -/
def encodeTree (t : DocumentTree) : Json :=
  Json.obj
    [("doc_id", Json.str t.doc_id),
     ("title", Json.str t.title),
     ("description", encodeOpt t.description),
     ("root", encodeNode t.root)]

/-- Matching deserializer for `encodeTree`. -/
def decodeTree (j : Json) : Option DocumentTree :=
  match j with
  | Json.obj
      [("doc_id", Json.str doc_id),
       ("title", Json.str title),
       ("description", d),
       ("root", r)] =>
    match decodeOpt d, decodeNode r with
    | some description, some root => some ⟨doc_id, title, description, root⟩
    | _, _ => none
  | _ => none

/-- Modelled from the spec (§4.3): the real nodes of a tree in preorder,
with the synthetic aggregator root excluded. -/
def specRealNodes (t : DocumentTree) : List Node :=
  if t.root.node_id = "0" then Node.flattenList t.root.children
  else t.root.flatten

/-- Modelled from the spec (§4.3 / §6): one outline line, two spaces per
unit of `depth - 1`, then the bracketed id and the title. -/
def specLine (n : Node) : String :=
  ⟨List.replicate (2 * (n.depth - 1)) ' '⟩ ++ "[" ++ n.node_id ++ "] " ++ n.title

/-- Modelled from the spec (§4.3): the outline is the newline-join of
the rendered lines of all real nodes in document order. -/
def specOutline (t : DocumentTree) : String :=
  joinNL ((specRealNodes t).map specLine)


/-! ## Basic lemmas about the tree model -/

/-- Strong induction over the nested `Node` type. -/
theorem Node.strongInd {P : Node → Prop}
    (step : ∀ n : Node, (∀ c ∈ n.children, P c) → P n) : ∀ n, P n := by
  have key : ∀ k (n : Node), sizeOf n ≤ k → P n := by
    intro k
    induction k with
    | zero =>
      intro n h
      have := Node.sizeOf_pos n
      omega
    | succ k ih =>
      intro n h
      refine step n (fun c hc => ih c ?_)
      have := Node.sizeOf_mem_children hc
      omega
  exact fun n => key (sizeOf n) n le_rfl

theorem Node.flattenList_append (xs ys : List Node) :
    Node.flattenList (xs ++ ys) = Node.flattenList xs ++ Node.flattenList ys := by
  induction xs with
  | nil => simp [Node.flattenList]
  | cons c cs ih => simp [Node.flattenList, ih]

theorem Node.allIdsList_append (xs ys : List Node) :
    Node.allIdsList (xs ++ ys) = Node.allIdsList xs ++ Node.allIdsList ys := by
  induction xs with
  | nil => simp [Node.allIdsList]
  | cons c cs ih => simp [Node.allIdsList, ih]

/-- `all_ids` lists exactly the ids of the preorder flattening. -/
theorem Node.all_ids_eq_flatten (n : Node) :
    n.all_ids = n.flatten.map Node.node_id := by
  induction n using Node.strongInd with
  | step n ih =>
    have list : ∀ ns : List Node, (∀ c ∈ ns, c.all_ids = c.flatten.map Node.node_id) →
        Node.allIdsList ns = (Node.flattenList ns).map Node.node_id := by
      intro ns hns
      induction ns with
      | nil => simp [Node.allIdsList, Node.flattenList]
      | cons c cs ihc =>
        rw [Node.allIdsList, Node.flattenList]
        rw [hns c (by simp), ihc (fun d hd => hns d (by simp [hd]))]
        simp
    rw [Node.all_ids, Node.flatten]
    rw [list n.children ih]
    simp

theorem Node.mem_flattenList {m : Node} {ns : List Node} :
    m ∈ Node.flattenList ns ↔ ∃ c ∈ ns, m ∈ c.flatten := by
  induction ns with
  | nil => simp [Node.flattenList]
  | cons c cs ih =>
    rw [Node.flattenList]
    simp only [List.mem_append, ih]
    constructor
    · rintro (h | ⟨d, hd, hm⟩)
      · exact ⟨c, by simp, h⟩
      · exact ⟨d, by simp [hd], hm⟩
    · rintro ⟨d, hd, hm⟩
      rcases List.mem_cons.mp hd with h | h
      · subst h; exact Or.inl hm
      · exact Or.inr ⟨d, h, hm⟩

/-- A successful `find` returns a node of the tree. -/
theorem Node.find_mem {n m : Node} {i : String} (h : n.find i = some m) :
    m ∈ n.flatten := by
  induction n using Node.strongInd generalizing m with
  | step n ih =>
    have list : ∀ ns : List Node, (∀ c ∈ ns, ∀ m, c.find i = some m → m ∈ c.flatten) →
        ∀ m, Node.findInList ns i = some m → m ∈ Node.flattenList ns := by
      intro ns hns
      induction ns with
      | nil => intro m hm; simp [Node.findInList] at hm
      | cons c cs ihc =>
        intro m hm
        rw [Node.findInList] at hm
        rw [Node.flattenList]
        rcases hfind : c.find i with _ | f
        · rw [hfind] at hm
          simp only at hm
          exact List.mem_append_right _ (ihc (fun d hd => hns d (by simp [hd])) m hm)
        · rw [hfind] at hm
          have hfm : f = m := by simpa using hm
          exact List.mem_append_left _ (hfm ▸ hns c (by simp) f hfind)
    rw [Node.find] at h
    by_cases hid : n.node_id = i
    · rw [if_pos hid] at h
      cases h
      rw [Node.flatten]
      simp
    · rw [if_neg hid] at h
      rw [Node.flatten]
      exact List.mem_cons_of_mem _ (list n.children (fun c hc m hm => ih c hc hm) m h)

/-- A successful `find` returns a node carrying the requested id. -/
theorem Node.find_id {n m : Node} {i : String} (h : n.find i = some m) :
    m.node_id = i := by
  induction n using Node.strongInd generalizing m with
  | step n ih =>
    have list : ∀ ns : List Node, (∀ c ∈ ns, ∀ m, c.find i = some m → m.node_id = i) →
        ∀ m, Node.findInList ns i = some m → m.node_id = i := by
      intro ns hns
      induction ns with
      | nil => intro m hm; simp [Node.findInList] at hm
      | cons c cs ihc =>
        intro m hm
        rw [Node.findInList] at hm
        rcases hfind : c.find i with _ | f
        · rw [hfind] at hm
          simp only at hm
          exact ihc (fun d hd => hns d (by simp [hd])) m hm
        · rw [hfind] at hm
          have hfm : f = m := by simpa using hm
          exact hfm ▸ hns c (by simp) f hfind
    rw [Node.find] at h
    by_cases hid : n.node_id = i
    · rw [if_pos hid] at h
      cases h
      exact hid
    · rw [if_neg hid] at h
      exact list n.children (fun c hc m hm => ih c hc hm) m h

/-- Finding a node by the root id succeeds immediately. -/
theorem Node.find_root_id (n : Node) : n.find n.node_id = some n := by
  rw [Node.find]
  simp


/-! ## String-primitive lemmas -/

theorem splitOnChar_ne_nil (sep : Char) (l : List Char) : splitOnChar sep l ≠ [] := by
  cases l with
  | nil => simp [splitOnChar]
  | cons c cs =>
    rw [splitOnChar]
    by_cases h : c = sep
    · simp [h]
    · rw [if_neg h]
      rcases hs : splitOnChar sep cs with _ | ⟨p, ps⟩ <;> simp

theorem splitOnChar_no_sep {sep : Char} {l : List Char} (h : sep ∉ l) :
    splitOnChar sep l = [l] := by
  induction l with
  | nil => rw [splitOnChar]
  | cons c cs ih =>
    rw [splitOnChar]
    have hc : ¬c = sep := fun hh => h (by simp [hh])
    rw [if_neg hc, ih (fun hh => h (by simp [hh]))]

theorem splitOnChar_sep_cons (sep : Char) {p : List Char} (l : List Char) (h : sep ∉ p) :
    splitOnChar sep (p ++ sep :: l) = p :: splitOnChar sep l := by
  induction p with
  | nil => simp [splitOnChar]
  | cons c cs ih =>
    have hc : ¬c = sep := fun hh => h (by simp [hh])
    rw [List.cons_append, splitOnChar, if_neg hc, ih (fun hh => h (by simp [hh]))]

theorem splitOnChar_joinChar {sep : Char} {parts : List (List Char)}
    (hne : parts ≠ []) (hs : ∀ p ∈ parts, sep ∉ p) :
    splitOnChar sep (joinChar sep parts) = parts := by
  induction parts with
  | nil => exact absurd rfl hne
  | cons p ps ih =>
    cases ps with
    | nil => exact splitOnChar_no_sep (hs p (by simp))
    | cons q qs =>
      rw [joinChar, splitOnChar_sep_cons sep _ (hs p (by simp))]
      rw [ih (List.cons_ne_nil q qs) (fun r hr => hs r (by simp [hr]))]
      exact List.cons_ne_nil q qs

theorem joinChar_splitOnChar (sep : Char) (l : List Char) :
    joinChar sep (splitOnChar sep l) = l := by
  induction l with
  | nil => rw [splitOnChar, joinChar]
  | cons c cs ih =>
    rw [splitOnChar]
    rcases hs : splitOnChar sep cs with _ | ⟨p, ps⟩
    · exact absurd hs (splitOnChar_ne_nil sep cs)
    · rw [hs] at ih
      by_cases h : c = sep
      · rw [if_pos h, joinChar]
        · rw [List.nil_append, ih, h]
        · exact List.cons_ne_nil p ps
      · rw [if_neg h]
        cases ps with
        | nil =>
          rw [joinChar] at ih ⊢
          rw [ih]
        | cons q qs =>
          rw [joinChar] at ih ⊢
          · rw [List.cons_append, ih]
          · exact List.cons_ne_nil q qs
          · exact List.cons_ne_nil q qs

theorem splitDots_joinDots {parts : List String}
    (hne : parts ≠ []) (hs : ∀ p ∈ parts, ('.' : Char) ∉ p.data) :
    splitDots (joinDots parts) = parts := by
  rw [splitDots, joinDots]
  have : splitOnChar '.' (joinChar '.' (parts.map String.data)) = parts.map String.data := by
    refine splitOnChar_joinChar ?_ ?_
    · simp [hne]
    · intro p hp
      rcases List.mem_map.mp hp with ⟨q, hq, rfl⟩
      exact hs q hq
  rw [this]
  rw [List.map_map]
  have : (fun l => (⟨l⟩ : String)) ∘ String.data = id := by
    funext q
    rfl
  rw [this, List.map_id]

theorem joinDots_splitDots (s : String) : joinDots (splitDots s) = s := by
  rw [splitDots, joinDots, List.map_map]
  have : String.data ∘ (fun l => (⟨l⟩ : String)) = id := by
    funext l
    rfl
  rw [this, List.map_id]
  exact String.ext (joinChar_splitOnChar '.' s.data)

theorem splitDots_ne_nil (s : String) : splitDots s ≠ [] := by
  rw [splitDots]
  simp [splitOnChar_ne_nil]

/-! ## Decimal printing lemmas -/

theorem natChars_ne_nil {fuel n : Nat} (h : 1 ≤ fuel) : natChars fuel n ≠ [] := by
  cases fuel with
  | zero => omega
  | succ f =>
    rw [natChars]
    by_cases hn : n < 10
    · simp [hn]
    · simp [hn]

theorem digitChar_ne_dot {n : Nat} (h : n < 10) : digitChar n ≠ '.' := by
  interval_cases n <;> decide

theorem digitChar_ne_zero {n : Nat} (h1 : 1 ≤ n) (h9 : n < 10) : digitChar n ≠ '0' := by
  interval_cases n <;> decide

theorem natChars_no_dot {fuel n : Nat} : ('.' : Char) ∉ natChars fuel n := by
  induction fuel generalizing n with
  | zero => simp [natChars]
  | succ f ih =>
    rw [natChars]
    by_cases hn : n < 10
    · simp only [if_pos hn, List.mem_singleton]
      intro hh
      exact digitChar_ne_dot hn hh.symm
    · simp only [if_neg hn, List.mem_append, List.mem_singleton]
      rintro (h | h)
      · exact ih h
      · exact digitChar_ne_dot (Nat.mod_lt n (by omega)) h.symm

theorem natToString_no_dot (n : Nat) : ('.' : Char) ∉ (natToString n).data :=
  natChars_no_dot

theorem natToString_ne_zero {n : Nat} (h : 1 ≤ n) : natToString n ≠ "0" := by
  rw [natToString]
  by_cases hn : n < 10
  · rw [natChars, if_pos hn]
    intro hh
    have : [digitChar n] = ['0'] := congrArg String.data hh
    exact digitChar_ne_zero h hn (by simpa using this)
  · rw [natChars, if_neg hn]
    intro hh
    have hdata : natChars n (n / 10) ++ [digitChar (n % 10)] = ['0'] :=
      congrArg String.data hh
    have hlen := congrArg List.length hdata
    have hne := @natChars_ne_nil n (n / 10) (by omega)
    rcases hcs : natChars n (n / 10) with _ | ⟨c, cs⟩
    · exact hne hcs
    · rw [hcs] at hlen
      simp at hlen

/-! ## Counter-array lemmas -/

theorem stepCounters_length (cs : List Nat) (d : Nat) :
    (stepCounters cs d).length = cs.length := by
  rw [stepCounters]
  simp [List.length_mapIdx, List.length_set]

theorem stepCounters_getElem? (cs : List Nat) (d i : Nat) :
    (stepCounters cs d)[i]? =
      ((cs.set d (cs.getD d 0 + 1))[i]?).map (fun c => if d < i then 0 else c) := by
  rw [stepCounters]
  rw [List.getElem?_mapIdx]

theorem stepCounters_getD_le (cs : List Nat) {d i : Nat} (hle : i ≤ d) (hne : i ≠ d) :
    (stepCounters cs d).getD i 0 = cs.getD i 0 := by
  rw [List.getD_eq_getElem?_getD, stepCounters_getElem?, List.getElem?_set_ne (fun hh => hne hh.symm)]
  rw [List.getD_eq_getElem?_getD]
  rcases cs[i]? with _ | c
  · rfl
  · simp [Nat.not_lt.mpr hle]

theorem stepCounters_getD_self (cs : List Nat) {d : Nat} (hd : d < cs.length) :
    (stepCounters cs d).getD d 0 = cs.getD d 0 + 1 := by
  rw [List.getD_eq_getElem?_getD, stepCounters_getElem?, List.getElem?_set_self (by simpa using hd)]
  simp

theorem stepCounters_getD_gt (cs : List Nat) {d i : Nat} (hgt : d < i) :
    (stepCounters cs d).getD i 0 = 0 := by
  rw [List.getD_eq_getElem?_getD, stepCounters_getElem?, List.getElem?_set_ne (by omega)]
  rcases cs[i]? with _ | c
  · rfl
  · simp [hgt]

theorem drop_take_eq_range' (l : List Nat) (d : Nat) (h : d + 1 ≤ l.length) :
    (l.drop 1).take d = (List.range' 1 d).map (fun i => l.getD i 0) := by
  induction d with
  | zero => simp
  | succ d ih =>
    rw [List.take_succ, ih (by omega)]
    have hcat : List.range' 1 (d + 1) = List.range' 1 d ++ [1 + d] := by
      have := @List.range'_concat 1 1 d
      simpa using this
    rw [hcat, List.map_append]
    congr 1
    rw [List.getElem?_drop]
    have hlt : 1 + d < l.length := by omega
    rw [List.getElem?_eq_getElem hlt]
    simp [List.getD_eq_getElem?_getD, List.getElem?_eq_getElem hlt]


/-! ## Lemmas about id formation and block annotation -/

/-- Depth of an annotated key. -/
def kdep (k : NKey) : Nat := k.2.2.1

theorem take_drop_length {cs : List Nat} {d : Nat} (h : d + 1 ≤ cs.length) :
    ((cs.drop 1).take d).length = d := by
  simp only [List.length_take, List.length_drop]
  omega

theorem splitDots_idFromCounters {cs : List Nat} {d : Nat}
    (h1 : 1 ≤ d) (h : d + 1 ≤ cs.length) :
    splitDots (idFromCounters cs d) = ((cs.drop 1).take d).map natToString := by
  rw [idFromCounters]
  refine splitDots_joinDots ?_ ?_
  · intro hnil
    have := congrArg List.length hnil
    rw [List.length_map, take_drop_length h] at this
    simp at this
    omega
  · intro p hp
    rcases List.mem_map.mp hp with ⟨m, hm, rfl⟩
    exact natToString_no_dot m

theorem splitDots_idFromCounters_length {cs : List Nat} {d : Nat}
    (h1 : 1 ≤ d) (h : d + 1 ≤ cs.length) :
    (splitDots (idFromCounters cs d)).length = d := by
  rw [splitDots_idFromCounters h1 h, List.length_map, take_drop_length h]

theorem mem_joinChar_sep (sep : Char) (p q : List Char) (ps : List (List Char)) :
    sep ∈ joinChar sep (p :: q :: ps) := by
  rw [joinChar]
  · simp
  · exact List.cons_ne_nil q ps

theorem idFromCounters_ne_zero {cs : List Nat} {d : Nat}
    (h1 : 1 ≤ d) (h : d + 1 ≤ cs.length) (hc : 1 ≤ cs.getD d 0) :
    idFromCounters cs d ≠ "0" := by
  have hparts : ((cs.drop 1).take d).length = d := take_drop_length h
  rcases Nat.lt_or_ge d 2 with hd2 | hd2
  · have hd1 : d = 1 := by omega
    subst hd1
    rcases hl : (cs.drop 1).take 1 with _ | ⟨c0, rest⟩
    · rw [hl] at hparts; simp at hparts
    · have hrest : rest = [] := by
        rw [hl] at hparts; simpa using hparts
      subst hrest
      have hc0 : c0 = cs.getD 1 0 := by
        have h1lt : 1 < cs.length := by omega
        have : (cs.drop 1).take 1 = [cs.getD 1 0] := by
          rw [drop_take_eq_range' cs 1 (by omega)]
          rfl
        rw [hl] at this
        simpa using this
      rw [idFromCounters, hl, hc0]
      intro hh
      have : joinDots [natToString (cs.getD 1 0)] = natToString (cs.getD 1 0) := by
        rw [joinDots]
        rfl
      rw [List.map_singleton, this] at hh
      exact natToString_ne_zero hc hh
  · rcases hl : (cs.drop 1).take d with _ | ⟨c0, rest⟩
    · rw [hl] at hparts; simp at hparts; omega
    · rcases rest with _ | ⟨c1, rest'⟩
      · rw [hl] at hparts; simp at hparts; omega
      · rw [idFromCounters, hl]
        intro hh
        have hdot : ('.' : Char) ∈ (joinDots ((c0 :: c1 :: rest').map natToString)).data := by
          rw [joinDots]
          exact mem_joinChar_sep '.' _ _ _
        rw [hh] at hdot
        simp at hdot

theorem annotate_length (cs : List Nat) (bs : List Block) :
    (annotate cs bs).length = bs.length := by
  induction bs generalizing cs with
  | nil => rfl
  | cons b bs ih =>
    rcases b with ⟨d, t, x⟩
    rw [annotate]
    simp [ih]

theorem annotate_forall2 (cs : List Nat) (bs : List Block) :
    List.Forall₂ (fun (k : NKey) (b : Block) =>
      kdep k = b.1 ∧ k.2.1 = b.2.1 ∧ k.2.2.2 = b.2.2) (annotate cs bs) bs := by
  induction bs generalizing cs with
  | nil => exact List.Forall₂.nil
  | cons b bs ih =>
    rcases b with ⟨d, t, x⟩
    rw [annotate]
    exact List.Forall₂.cons (by simp [kdep]) (ih _)

/-- Every annotated key has a real positive depth, an id that is not the
placeholder id, and an id whose component count equals its depth. -/
theorem annotate_mem {cs : List Nat} {bs : List Block}
    (hlen : cs.length = 10) (hd : ∀ b ∈ bs, 1 ≤ b.1 ∧ b.1 ≤ 9) :
    ∀ k ∈ annotate cs bs,
      k.1 ≠ "0" ∧ (splitDots k.1).length = kdep k ∧ 1 ≤ kdep k := by
  induction bs generalizing cs with
  | nil => simp [annotate]
  | cons b bs ih =>
    rcases b with ⟨d, t, x⟩
    have hb := hd (d, t, x) (by simp)
    have hd1 : 1 ≤ d := hb.1
    have hd9 : d ≤ 9 := hb.2
    intro k hk
    rw [annotate] at hk
    have hlen' : (stepCounters cs d).length = 10 := by
      rw [stepCounters_length, hlen]
    rcases List.mem_cons.mp hk with hk | hk
    · subst hk
      refine ⟨?_, ?_, hd1⟩
      · refine idFromCounters_ne_zero hd1 (by omega) ?_
        rw [stepCounters_getD_self cs (by omega)]
        omega
      · exact splitDots_idFromCounters_length hd1 (by omega)
    · exact ih hlen' (fun b hb => hd b (by simp [hb])) k hk

theorem annotate_ids_spec {cs : List Nat} {bs : List Block} {c : Nat → Nat}
    (hlen : cs.length = 10) (hagree : ∀ i, c i = cs.getD i 0)
    (hd : ∀ b ∈ bs, 1 ≤ b.1 ∧ b.1 ≤ 9) :
    (annotate cs bs).map (fun k => k.1) = specAssignedIds c bs := by
  induction bs generalizing cs c with
  | nil => rfl
  | cons b bs ih =>
    rcases b with ⟨d, t, x⟩
    have hb := hd (d, t, x) (by simp)
    have hd1 : 1 ≤ d := hb.1
    have hd9 : d ≤ 9 := hb.2
    rw [annotate, specAssignedIds]
    have hlen' : (stepCounters cs d).length = 10 := by
      rw [stepCounters_length, hlen]
    have hagree' : ∀ i, specCounterStep c d i = (stepCounters cs d).getD i 0 := by
      intro i
      rw [specCounterStep]
      rcases Nat.lt_trichotomy i d with hlt | heq | hgt
      · rw [if_neg (by omega), if_neg (by omega), hagree i,
          stepCounters_getD_le cs (by omega) (by omega)]
      · subst heq
        rw [if_pos rfl, hagree i, stepCounters_getD_self cs (by omega)]
      · rw [if_neg (by omega), if_pos hgt, stepCounters_getD_gt cs hgt]
    have hid : idFromCounters (stepCounters cs d) d = specNodeId (specCounterStep c d) d := by
      rw [idFromCounters, specNodeId,
        drop_take_eq_range' (stepCounters cs d) d (by omega), List.map_map, List.map_map]
      refine congrArg joinDots (List.map_congr_left ?_)
      intro i hi
      simp only [Function.comp_apply]
      rw [hagree' i]
    rw [List.map_cons, hid, ih hlen' hagree' (fun b hb => hd b (by simp [hb]))]

theorem tlBy_map_eq {α β γ : Type} {depA : α → Nat} {depB : β → Nat}
    {f : α → γ} {g : β → γ} {as : List α} {bs : List β}
    (hrel : List.Forall₂ (fun a b => depA a = depB b ∧ f a = g b) as bs) :
    ∀ m, (tlBy depA m as).map f = (tlBy depB m bs).map g := by
  induction hrel with
  | nil => intro m; rfl
  | @cons a b l1 l2 hab hrest ih =>
    intro m
    rw [tlBy, tlBy]
    rw [hab.1]
    by_cases ht : tlTake m (depB b) = true
    · rw [if_pos ht, if_pos ht, List.map_cons, List.map_cons, hab.2, ih]
    · rw [if_neg ht, if_neg ht, ih]


/-! ## Stack-machine lemmas for `build_tree` -/

/-- Folding a popped node into the nodes below it, as done by the
popping loops: each popped node is appended to the children of the node
below, which then becomes the top. -/
def foldStack (top : Node) : List Node → Node
  | [] => top
  | n :: ns => foldStack { n with children := n.children ++ [top] } ns

theorem nkey_children_update (n : Node) (cs : List Node) :
    nkey { n with children := cs } = nkey n := by
  cases n
  rfl

theorem foldStack_key (chain : List Node) (top : Node) :
    nkey (foldStack top chain) = nkey (chain.getLastD top) := by
  induction chain generalizing top with
  | nil => rfl
  | cons n ns ih =>
    rw [foldStack, ih, List.getLastD_cons]
    cases ns with
    | nil => simp [List.getLastD, nkey_children_update]
    | cons m ms =>
      simp [List.getLast?_eq_getLast (m :: ms) (List.cons_ne_nil m ms)]

/-- Preorder keys of a stack, read from the bottom of the stack to the
top so that popping preserves them. -/
def stackFlatKeys (top : Node) (rest : List Node) : List NKey :=
  (Node.flattenList ((top :: rest).reverse)).map nkey

theorem flatten_key_cons (n : Node) :
    n.flatten.map nkey = nkey n :: (Node.flattenList n.children).map nkey := by
  rw [Node.flatten]
  simp

theorem flattenList_singleton (n : Node) : Node.flattenList [n] = n.flatten := by
  rw [Node.flattenList, Node.flattenList]
  simp

/-- Appending one more child moves that child subtree to the end of the
preorder key list. -/
theorem flatten_update_keys (n top : Node) :
    ({ n with children := n.children ++ [top] } : Node).flatten.map nkey =
      n.flatten.map nkey ++ top.flatten.map nkey := by
  rw [flatten_key_cons, flatten_key_cons]
  simp only [nkey_children_update]
  rw [Node.flattenList_append]
  have : Node.flattenList [top] = top.flatten := by
    rw [Node.flattenList, Node.flattenList]
    simp
  simp [this]

theorem stackFlatKeys_cons (top next : Node) (rest : List Node) :
    stackFlatKeys top (next :: rest) =
      (Node.flattenList ((next :: rest).reverse)).map nkey ++ top.flatten.map nkey := by
  rw [stackFlatKeys, List.reverse_cons, Node.flattenList_append]
  have : Node.flattenList [top] = top.flatten := by
    rw [Node.flattenList, Node.flattenList]
    simp
  simp [this]

theorem stackFlatKeys_push (node top : Node) (rest : List Node) :
    stackFlatKeys node (top :: rest) = stackFlatKeys top rest ++ node.flatten.map nkey := by
  rw [stackFlatKeys_cons, stackFlatKeys]

theorem stackFlatKeys_bottom (top ph : Node) (rest : List Node) :
    stackFlatKeys top (rest ++ [ph]) = ph.flatten.map nkey ++ stackFlatKeys top rest := by
  rw [stackFlatKeys, stackFlatKeys]
  have hrev : (top :: (rest ++ [ph])).reverse = ph :: (top :: rest).reverse := by
    simp
  rw [hrev, Node.flattenList]
  simp

theorem foldStack_flatten_keys (chain : List Node) (top : Node) :
    (foldStack top chain).flatten.map nkey = stackFlatKeys top chain := by
  induction chain generalizing top with
  | nil =>
    rw [foldStack, stackFlatKeys]
    have : Node.flattenList [top] = top.flatten := by
      rw [Node.flattenList, Node.flattenList]
      simp
    simp [this]
  | cons n ns ih =>
    rw [foldStack, ih, stackFlatKeys, stackFlatKeys]
    rw [List.reverse_cons, List.reverse_cons, List.reverse_cons]
    rw [Node.flattenList_append, Node.flattenList_append, Node.flattenList_append]
    simp only [List.map_append]
    rw [flattenList_singleton, flattenList_singleton, flattenList_singleton,
      flatten_update_keys]
    simp

/-- Popping preserves the bottom-to-top preorder keys of the stack. -/
theorem popGe_flat_keys (rest : List Node) (top : Node) (d : Nat) :
    stackFlatKeys (popGe top rest d).1 (popGe top rest d).2 = stackFlatKeys top rest := by
  induction rest generalizing top with
  | nil => rw [popGe]
  | cons next rest ih =>
    rw [popGe]
    by_cases h : d ≤ top.depth
    · rw [if_pos h, ih]
      rw [stackFlatKeys_cons, stackFlatKeys, List.reverse_cons, List.reverse_cons,
        Node.flattenList_append, Node.flattenList_append]
      simp only [List.map_append]
      rw [flattenList_singleton, flattenList_singleton, flatten_update_keys]
      simp
    · rw [if_neg h]

/-- A popping pass that runs through `us` (all at depth at least `d`)
and stops at `L` (below `d`), folding the popped run into `L`. -/
theorem popGe_through (us : List Node) (u L : Node) (ts : List Node) (d : Nat)
    (hup : ∀ n ∈ u :: us, d ≤ n.depth) (hL : L.depth < d) :
    popGe u (us ++ L :: ts) d =
      ({ L with children := L.children ++ [foldStack u us] }, ts) := by
  induction us generalizing u with
  | nil =>
    rw [List.nil_append, popGe, if_pos (hup u (by simp))]
    cases ts with
    | nil => rw [popGe, foldStack]
    | cons v ts' =>
      rw [popGe, foldStack]
      rw [if_neg (by simp; omega)]
  | cons w ws ih =>
    rw [List.cons_append, popGe, if_pos (hup u (by simp))]
    rw [ih _ (fun n hn => ?_) ]
    · rw [foldStack]
    · rcases List.mem_cons.mp hn with hn | hn
      · subst hn
        simpa using hup w (by simp)
      · exact hup n (by simp [hn])

/-- When the new depth is above the top of the stack nothing pops. -/
theorem popGe_nopop (top : Node) (rest : List Node) (d : Nat) (h : ¬d ≤ top.depth) :
    popGe top rest d = (top, rest) := by
  cases rest with
  | nil => rw [popGe]
  | cons next rest' => rw [popGe, if_neg h]

/-- The final drain folds the whole stack into the bottom element. -/
theorem drain_through (chain : List Node) (top L : Node) :
    drain top (chain ++ [L]) = { L with children := L.children ++ [foldStack top chain] } := by
  induction chain generalizing top with
  | nil => rw [List.nil_append, drain, drain, foldStack]
  | cons n ns ih =>
    rw [List.cons_append, drain, ih, foldStack]

/-- In a stack chain with strictly decreasing depths, the last element
is the shallowest. -/
theorem chain_last_le :
    ∀ {l : List Node}, List.Chain' (fun a b => b.depth < a.depth) l →
      ∀ h : l ≠ [], ∀ n ∈ l, (l.getLast h).depth ≤ n.depth := by
  intro l
  induction l with
  | nil => intro _ h; exact absurd rfl h
  | cons a l ih =>
    intro hch hne n hn
    cases l with
    | nil =>
      rcases List.mem_singleton.mp hn with rfl
      simp [List.getLast]
    | cons b l2 =>
      have hrel := (List.chain'_cons.mp hch).1
      have hch2 := (List.chain'_cons.mp hch).2
      rw [List.getLast_cons (List.cons_ne_nil b l2)]
      rcases List.mem_cons.mp hn with rfl | hn
      · have := ih hch2 (List.cons_ne_nil b l2) b (by simp)
        omega
      · exact ih hch2 (List.cons_ne_nil b l2) n hn
/-! ## The build-stack invariant -/

/-- Field values of the synthetic placeholder root (its children grow
during construction). -/
def IsPh (n : Node) : Prop :=
  n.node_id = "0" ∧ n.title = "root" ∧ n.depth = 0 ∧ n.text = "" ∧ n.summary = none

theorem IsPh_update {n : Node} (h : IsPh n) (cs : List Node) :
    IsPh { n with children := cs } := h

theorem IsPh_rootNode : IsPh rootNode :=
  ⟨rfl, rfl, rfl, rfl, rfl⟩

/-- Well-formedness of the build stack: a run of real nodes with
strictly decreasing positive depths sitting on the placeholder. -/
def StackOk (st : BuildState) : Prop :=
  ∃ real ph, st.top :: st.rest = real ++ [ph] ∧ IsPh ph ∧
    List.Chain' (fun a b => b.depth < a.depth) real ∧
    ∀ n ∈ real, 1 ≤ n.depth

/-- The run of real open nodes, topmost first. -/
def realChain (st : BuildState) : List Node :=
  (st.top :: st.rest).dropLast

/-- The placeholder at the bottom of the stack. -/
def phNode (st : BuildState) : Node :=
  ((st.top :: st.rest).getLast?).getD rootNode

/-- Keys already attached to the placeholder. -/
def phChildKeys (st : BuildState) : List NKey :=
  (phNode st).children.map nkey

/-- Depth of the shallowest (bottom-most) open real node. -/
def botDepth (st : BuildState) : Option Nat :=
  (realChain st).getLast?.map Node.depth

/-- Keys that will end up as children of the placeholder: the ones
already attached plus the bottom-most open real node. -/
def pendKeys (st : BuildState) : List NKey :=
  phChildKeys st ++ ((realChain st).getLast?.map nkey).toList

theorem realChain_decomp {st : BuildState} {real : List Node} {ph : Node}
    (hdec : st.top :: st.rest = real ++ [ph]) : realChain st = real := by
  rw [realChain, hdec, List.dropLast_concat]

theorem phNode_decomp {st : BuildState} {real : List Node} {ph : Node}
    (hdec : st.top :: st.rest = real ++ [ph]) : phNode st = ph := by
  rw [phNode, hdec, List.getLast?_concat]
  rfl

theorem pendKeys_decomp {st : BuildState} {real : List Node} {ph : Node}
    (hdec : st.top :: st.rest = real ++ [ph]) :
    pendKeys st = ph.children.map nkey ++ ((real.getLast?).map nkey).toList := by
  rw [pendKeys, phChildKeys, phNode_decomp hdec, realChain_decomp hdec]

theorem botDepth_decomp {st : BuildState} {real : List Node} {ph : Node}
    (hdec : st.top :: st.rest = real ++ [ph]) :
    botDepth st = real.getLast?.map Node.depth := by
  rw [botDepth, realChain_decomp hdec]

/-- Characterization of one parser step on a well-formed stack. -/
theorem buildStep_char {st st' : BuildState} {d : Nat} {tt bb : String}
    (hok : StackOk st) (hd1 : 1 ≤ d)
    (hstep : buildStep st (d, tt, bb) = some st') :
    d ≤ 9 ∧
    st'.counters = stepCounters st.counters d ∧
    StackOk st' ∧
    stackFlatKeys st'.top st'.rest =
      stackFlatKeys st.top st.rest ++
        [(idFromCounters (stepCounters st.counters d) d, tt, d, bb)] ∧
    (tlTake (botDepth st) d = true →
      pendKeys st' = pendKeys st ++
        [(idFromCounters (stepCounters st.counters d) d, tt, d, bb)] ∧
      botDepth st' = some d) ∧
    (tlTake (botDepth st) d = false →
      pendKeys st' = pendKeys st ∧ botDepth st' = botDepth st) := by
  rw [buildStep] at hstep
  by_cases hd10 : d < 10
  swap
  · rw [if_neg (by simpa using hd10)] at hstep
    exact absurd hstep (by simp)
  rw [if_pos (by simpa using hd10)] at hstep
  have hst' : st' = ⟨Node.new (idFromCounters (stepCounters st.counters d) d) tt d bb,
      (popGe st.top st.rest d).1 :: (popGe st.top st.rest d).2,
      stepCounters st.counters d⟩ := (Option.some.inj hstep).symm
  subst hst'
  obtain ⟨real, ph, hdec, hph, hchain, hpos⟩ := hok
  have hnodekey : nkey (Node.new (idFromCounters (stepCounters st.counters d) d) tt d bb) =
      (idFromCounters (stepCounters st.counters d) d, tt, d, bb) := rfl
  have hnodeflat : (Node.new (idFromCounters (stepCounters st.counters d) d) tt d bb).flatten =
      [Node.new (idFromCounters (stepCounters st.counters d) d) tt d bb] := by
    rw [Node.new, Node.flatten, Node.flattenList]
  have hflatkeys : stackFlatKeys
      (Node.new (idFromCounters (stepCounters st.counters d) d) tt d bb)
      ((popGe st.top st.rest d).1 :: (popGe st.top st.rest d).2) =
      stackFlatKeys st.top st.rest ++
        [(idFromCounters (stepCounters st.counters d) d, tt, d, bb)] := by
    rw [stackFlatKeys_push, popGe_flat_keys, hnodeflat]
    simp [nkey, Node.new]
  refine ⟨by omega, rfl, ?_⟩
  cases real with
  | nil =>
    obtain ⟨htop, hrest⟩ := List.cons.inj hdec
    have hpop : popGe st.top st.rest d = (st.top, []) := by
      rw [hrest, popGe]
    have hbot : botDepth st = none := by
      rw [botDepth, realChain, hrest, List.dropLast_single]
      rfl
    refine ⟨?_, hflatkeys, ?_, ?_⟩
    · refine ⟨[Node.new (idFromCounters (stepCounters st.counters d) d) tt d bb], st.top,
        by simp [hpop], htop ▸ hph, List.chain'_singleton _, ?_⟩
      intro n hn
      rcases List.mem_singleton.mp hn with rfl
      simpa [Node.new] using hd1
    · intro _
      rw [hpop]
      constructor
      · simp [pendKeys, phChildKeys, phNode, realChain, botDepth, hrest, Node.new, nkey]
      · simp [botDepth, realChain, Node.new]
    · intro hf
      rw [hbot] at hf
      simp [tlTake] at hf
  | cons r rs =>
    obtain ⟨htop, hrest⟩ := List.cons.inj hdec
    have hrsne : r :: rs ≠ [] := List.cons_ne_nil r rs
    have hreal : realChain st = r :: rs := realChain_decomp hdec
    have hphn : phNode st = ph := phNode_decomp hdec
    have hbot : botDepth st = some (((r :: rs).getLast hrsne).depth) := by
      rw [botDepth, hreal, List.getLast?_eq_getLast _ hrsne]
      rfl
    have hphd : ph.depth = 0 := hph.2.2.1
    have hpend : pendKeys st = ph.children.map nkey ++ [nkey ((r :: rs).getLast hrsne)] := by
      rw [pendKeys, phChildKeys, hphn, hreal, List.getLast?_eq_getLast _ hrsne]
      rfl
    by_cases htake : d ≤ ((r :: rs).getLast hrsne).depth
    · -- the new block closes every open section and lands on the placeholder
      have hall : ∀ n ∈ r :: rs, d ≤ n.depth := fun n hn =>
        le_trans htake (chain_last_le hchain hrsne n hn)
      have hpop : popGe st.top st.rest d =
          ({ ph with children := ph.children ++ [foldStack r rs] }, []) := by
        rw [htop, hrest]
        exact popGe_through rs r ph [] d hall (by omega)
      have hfold : nkey (foldStack r rs) = nkey ((r :: rs).getLast hrsne) := by
        rw [foldStack_key, List.getLast_eq_getLastD]
      refine ⟨?_, hflatkeys, ?_, ?_⟩
      · refine ⟨[Node.new (idFromCounters (stepCounters st.counters d) d) tt d bb],
          { ph with children := ph.children ++ [foldStack r rs] },
          by simp [hpop], IsPh_update hph _, List.chain'_singleton _, ?_⟩
        intro n hn
        rcases List.mem_singleton.mp hn with rfl
        simpa [Node.new] using hd1
      · intro _
        rw [hpop, hpend, ← hfold]
        constructor
        · simp [pendKeys, phChildKeys, phNode, realChain, Node.new, nkey]
        · simp [botDepth, realChain, Node.new]
      · intro hf
        rw [hbot] at hf
        simp only [tlTake, decide_eq_false_iff_not] at hf
        exact absurd htake hf
    · -- the new block nests somewhere inside the open chain
      have htl : tlTake (botDepth st) d = false := by
        rw [hbot]
        simpa [tlTake] using htake
      have hlo := List.takeWhile_append_dropWhile (fun n => decide (d ≤ n.depth)) (r :: rs)
      have hlone : (r :: rs).dropWhile (fun n => decide (d ≤ n.depth)) ≠ [] := by
        intro hnil
        have hlo2 := hlo
        rw [hnil, List.append_nil] at hlo2
        have hmem : (r :: rs).getLast hrsne ∈
            (r :: rs).takeWhile (fun n => decide (d ≤ n.depth)) := by
          rw [hlo2]
          exact List.getLast_mem hrsne
        have := List.mem_takeWhile_imp hmem
        simp at this
        omega
      rcases hloeq : (r :: rs).dropWhile (fun n => decide (d ≤ n.depth)) with _ | ⟨L, lt⟩
      · exact absurd hloeq hlone
      have hLd : ¬(d ≤ L.depth) := by
        have := List.head?_dropWhile_not (fun n => decide (d ≤ n.depth)) (r :: rs)
        rw [hloeq] at this
        simpa using this
      have hsplit : (r :: rs).takeWhile (fun n => decide (d ≤ n.depth)) ++ L :: lt = r :: rs := by
        rw [← hloeq]
        exact hlo
      have hLmem : L ∈ r :: rs := by
        rw [← hsplit]
        simp
      have hltmem : ∀ n ∈ lt, n ∈ r :: rs := by
        intro n hn
        rw [← hsplit]
        simp [hn]
      have hchainlo : List.Chain' (fun a b => b.depth < a.depth) (L :: lt) := by
        have := (List.chain'_append.mp (hsplit ▸ hchain)).2.1
        exact this
      have hlast : (r :: rs).getLast hrsne = (L :: lt).getLast (List.cons_ne_nil L lt) := by
        have h1 : (r :: rs).getLast? = (L :: lt).getLast? := by
          conv_lhs => rw [← hsplit]
          exact List.getLast?_append_of_ne_nil _ (List.cons_ne_nil L lt)
        rw [List.getLast?_eq_getLast _ hrsne, List.getLast?_eq_getLast _ (List.cons_ne_nil L lt)] at h1
        exact Option.some.inj h1
      rcases hupq : (r :: rs).takeWhile (fun n => decide (d ≤ n.depth)) with _ | ⟨u, us⟩
      · -- nothing pops: the new node sits directly on the old top
        rw [hupq, List.nil_append] at hsplit
        obtain ⟨hLr, hltrs⟩ := List.cons.inj hsplit
        have hpop : popGe st.top st.rest d = (st.top, st.rest) := by
          refine popGe_nopop st.top st.rest d ?_
          rw [htop, ← hLr]
          exact hLd
        have hdec' : (Node.new (idFromCounters (stepCounters st.counters d) d) tt d bb) ::
            (popGe st.top st.rest d).1 :: (popGe st.top st.rest d).2 =
            (Node.new (idFromCounters (stepCounters st.counters d) d) tt d bb :: r :: rs) ++ [ph] := by
          rw [hpop, htop, hrest]
          simp
        refine ⟨?_, hflatkeys, ?_, ?_⟩
        · refine ⟨Node.new (idFromCounters (stepCounters st.counters d) d) tt d bb :: r :: rs,
            ph, hdec', hph, ?_, ?_⟩
          · rw [List.chain'_cons]
            refine ⟨?_, hchain⟩
            show r.depth < d
            rw [← hLr]
            omega
          · intro n hn
            rcases List.mem_cons.mp hn with rfl | hn
            · simpa [Node.new] using hd1
            · exact hpos n hn
        · intro ht
          rw [htl] at ht
          simp at ht
        · intro _
          constructor
          · rw [pendKeys_decomp hdec', pendKeys_decomp hdec]
            rw [List.getLast?_cons_cons]
          · rw [botDepth_decomp hdec', botDepth_decomp hdec]
            rw [List.getLast?_cons_cons]
      · -- a nonempty run at depth ≥ d pops onto the first shallower node
        have hru : u = r ∧ us ++ L :: lt = rs := by
          rw [hupq] at hsplit
          exact List.cons.inj hsplit
        have hupmem : ∀ n ∈ u :: us, d ≤ n.depth := by
          intro n hn
          have hmem : n ∈ (r :: rs).takeWhile (fun m => decide (d ≤ m.depth)) := by
            rw [hupq]
            exact hn
          simpa using List.mem_takeWhile_imp hmem
        have hrest2 : st.rest = us ++ L :: (lt ++ [ph]) := by
          rw [hrest, ← hru.2]
          simp
        have hpop : popGe st.top st.rest d =
            ({ L with children := L.children ++ [foldStack u us] }, lt ++ [ph]) := by
          rw [htop, ← hru.1, hrest2]
          exact popGe_through us u L (lt ++ [ph]) d hupmem (by omega)
        have hdec' : (Node.new (idFromCounters (stepCounters st.counters d) d) tt d bb) ::
            (popGe st.top st.rest d).1 :: (popGe st.top st.rest d).2 =
            (Node.new (idFromCounters (stepCounters st.counters d) d) tt d bb ::
              { L with children := L.children ++ [foldStack u us] } :: lt) ++ [ph] := by
          rw [hpop]
          simp
        have hLdep : ({ L with children := L.children ++ [foldStack u us] } : Node).depth = L.depth := rfl
        have hgl : ((Node.new (idFromCounters (stepCounters st.counters d) d) tt d bb ::
              { L with children := L.children ++ [foldStack u us] } :: lt).getLast?).map nkey =
              ((r :: rs).getLast?).map nkey ∧
            ((Node.new (idFromCounters (stepCounters st.counters d) d) tt d bb ::
              { L with children := L.children ++ [foldStack u us] } :: lt).getLast?).map Node.depth =
              ((r :: rs).getLast?).map Node.depth := by
          rw [List.getLast?_eq_getLast _ hrsne, hlast]
          cases lt with
          | nil =>
            constructor
            · simp [List.getLast?, List.getLast, nkey_children_update]
            · simp [List.getLast?, List.getLast]
          | cons x xs =>
            rw [List.getLast?_cons_cons, List.getLast?_cons_cons,
              List.getLast_cons (List.cons_ne_nil x xs),
              List.getLast?_eq_getLast _ (List.cons_ne_nil x xs)]
            exact ⟨rfl, rfl⟩
        refine ⟨?_, hflatkeys, ?_, ?_⟩
        · refine ⟨Node.new (idFromCounters (stepCounters st.counters d) d) tt d bb ::
            { L with children := L.children ++ [foldStack u us] } :: lt, ph, hdec', hph, ?_, ?_⟩
          · rw [List.chain'_cons]
            constructor
            · show ({ L with children := L.children ++ [foldStack u us] } : Node).depth < _
              rw [hLdep]
              simp only [Node.new]
              omega
            · rw [List.chain'_cons'] at hchainlo ⊢
              refine ⟨?_, hchainlo.2⟩
              intro y hy
              have := hchainlo.1 y hy
              omega
          · intro n hn
            rcases List.mem_cons.mp hn with rfl | hn
            · simpa [Node.new] using hd1
            · rcases List.mem_cons.mp hn with rfl | hn
              · rw [hLdep]
                exact hpos L hLmem
              · exact hpos n (hltmem n hn)
        · intro ht
          rw [htl] at ht
          simp at ht
        · intro _
          constructor
          · rw [pendKeys_decomp hdec', pendKeys_decomp hdec, hgl.1]
          · rw [botDepth_decomp hdec', botDepth_decomp hdec, hgl.2]


/-- Chaining `buildStep_char` over the block list: the stack preorder
keys extend by the annotated blocks, and the pending placeholder
children extend by exactly the top-level blocks. -/
theorem runBlocks_main :
    ∀ (bs : List Block) (st st' : BuildState),
      runBlocks st bs = some st' →
      StackOk st →
      (∀ b ∈ bs, 1 ≤ b.1) →
      StackOk st' ∧
      stackFlatKeys st'.top st'.rest =
        stackFlatKeys st.top st.rest ++ annotate st.counters bs ∧
      pendKeys st' = pendKeys st ++ tlBy kdep (botDepth st) (annotate st.counters bs) ∧
      botDepth st' = tlm kdep (botDepth st) (annotate st.counters bs) := by
  intro bs
  induction bs with
  | nil =>
    intro st st' hrun hok hd
    rw [runBlocks] at hrun
    have hst : st = st' := Option.some.inj hrun
    subst hst
    exact ⟨hok, by simp [annotate], by simp [annotate, tlBy], by simp [annotate, tlm]⟩
  | cons b bs ih =>
    intro st st' hrun hok hd
    rcases b with ⟨d, tt, bb⟩
    rw [runBlocks] at hrun
    rcases hs : buildStep st (d, tt, bb) with _ | st1
    · rw [hs] at hrun
      simp at hrun
    rw [hs] at hrun
    simp only at hrun
    have hd1 : 1 ≤ d := hd (d, tt, bb) (by simp)
    obtain ⟨hd9, hcnt, hok1, hflat1, htrue, hfalse⟩ := buildStep_char hok hd1 hs
    obtain ⟨hok', hflat', hpend', hbot'⟩ := ih st1 st' hrun hok1 (fun b hb => hd b (by simp [hb]))
    have hann : annotate st.counters ((d, tt, bb) :: bs) =
        (idFromCounters (stepCounters st.counters d) d, tt, d, bb) ::
          annotate (stepCounters st.counters d) bs := by
      rw [annotate]
    have hkd : kdep (idFromCounters (stepCounters st.counters d) d, tt, d, bb) = d := rfl
    refine ⟨hok', ?_, ?_, ?_⟩
    · rw [hflat', hflat1, hann, hcnt]
      simp
    · rw [hann, tlBy, hkd]
      by_cases ht : tlTake (botDepth st) d = true
      · rw [if_pos ht]
        obtain ⟨hp1, hb1⟩ := htrue ht
        rw [hpend', hp1, hb1, hcnt]
        simp
      · rw [if_neg ht]
        obtain ⟨hp1, hb1⟩ := hfalse (by simpa using ht)
        rw [hpend', hp1, hb1, hcnt]
    · rw [hann, tlm, hkd]
      by_cases ht : tlTake (botDepth st) d = true
      · rw [if_pos ht]
        obtain ⟨hp1, hb1⟩ := htrue ht
        rw [hbot', hb1, hcnt]
      · rw [if_neg ht]
        obtain ⟨hp1, hb1⟩ := hfalse (by simpa using ht)
        rw [hbot', hb1, hcnt]

/-- A successful run keeps every block depth within the counter array. -/
theorem runBlocks_le9 :
    ∀ (bs : List Block) (st st' : BuildState),
      runBlocks st bs = some st' → ∀ b ∈ bs, b.1 ≤ 9 := by
  intro bs
  induction bs with
  | nil => intro st st' _ b hb; simp at hb
  | cons c bs ih =>
    intro st st' hrun b hb
    rw [runBlocks] at hrun
    rcases hs : buildStep st c with _ | st1
    · rw [hs] at hrun
      simp at hrun
    rw [hs] at hrun
    simp only at hrun
    rcases List.mem_cons.mp hb with rfl | hb
    · rw [buildStep] at hs
      by_cases h10 : b.1 < 10
      · omega
      · rw [if_neg h10] at hs
        simp at hs
    · exact ih st1 st' hrun b hb

/-- When every depth fits the counter array the loop cannot fail. -/
theorem runBlocks_total :
    ∀ (bs : List Block) (st : BuildState),
      (∀ b ∈ bs, b.1 ≤ 9) → (runBlocks st bs).isSome := by
  intro bs
  induction bs with
  | nil => intro st _; rw [runBlocks]; rfl
  | cons c bs ih =>
    intro st hd
    rw [runBlocks, buildStep]
    rw [if_pos (by have := hd c (by simp); omega)]
    simp only
    exact ih _ (fun b hb => hd b (by simp [hb]))


theorem IsPh_nkey {n : Node} (h : IsPh n) : nkey n = ("0", "root", 0, "") := by
  rw [nkey, h.1, h.2.1, h.2.2.1, h.2.2.2.1]

/-- Full characterization of `build_tree` on depth-positive blocks: the
result is the placeholder with the top-level blocks as children, or the
unique top-level subtree when there is exactly one. -/
theorem build_tree_char {blocks : List Block} {root : Node}
    (hd1 : ∀ b ∈ blocks, 1 ≤ b.1)
    (hbt : build_tree blocks = some root) :
    (∀ b ∈ blocks, b.1 ≤ 9) ∧
    ((tlBy kdep none (annotate (List.replicate 10 0) blocks)).length = 1 →
      root.flatten.map nkey = annotate (List.replicate 10 0) blocks) ∧
    ((tlBy kdep none (annotate (List.replicate 10 0) blocks)).length ≠ 1 →
      IsPh root ∧
      root.children.map nkey = tlBy kdep none (annotate (List.replicate 10 0) blocks) ∧
      (Node.flattenList root.children).map nkey = annotate (List.replicate 10 0) blocks) := by
  rw [build_tree] at hbt
  rcases hrun : runBlocks buildInit blocks with _ | st'
  · rw [hrun] at hbt
    simp at hbt
  rw [hrun] at hbt
  simp only [Option.map_some', Option.some.injEq] at hbt
  have h9 := runBlocks_le9 blocks _ _ hrun
  have hinitok : StackOk buildInit :=
    ⟨[], rootNode, rfl, IsPh_rootNode, List.chain'_nil, by simp⟩
  obtain ⟨hok', hflat, hpend, hbot⟩ := runBlocks_main blocks _ _ hrun hinitok hd1
  have hflat0 : stackFlatKeys buildInit.top buildInit.rest = [nkey rootNode] := by
    rw [buildInit, stackFlatKeys]
    simp only [List.reverse_cons, List.reverse_nil, List.nil_append]
    rw [flattenList_singleton, rootNode, Node.new, Node.flatten, Node.flattenList]
    rfl
  have hpend0 : pendKeys buildInit = [] := by
    rw [pendKeys, phChildKeys, phNode, realChain, buildInit]
    simp [rootNode, Node.new]
  have hcnt0 : buildInit.counters = List.replicate 10 0 := rfl
  have hbot0 : botDepth buildInit = none := by
    rw [botDepth, realChain, buildInit, List.dropLast_single]
    rfl
  rw [hflat0, hcnt0] at hflat
  rw [hpend0, hcnt0, hbot0, List.nil_append] at hpend
  obtain ⟨real, ph, hdec, hph, hchain, hpos⟩ := hok'
  have hphkey : nkey ph = nkey rootNode := by
    rw [IsPh_nkey hph]
    rfl
  refine ⟨h9, ?_⟩
  cases real with
  | nil =>
    obtain ⟨htop, hrest⟩ := List.cons.inj hdec
    have hdr : drain st'.top st'.rest = ph := by
      rw [hrest, drain, htop]
    have hpend' : ph.children.map nkey =
        tlBy kdep none (annotate (List.replicate 10 0) blocks) := by
      rw [pendKeys_decomp hdec] at hpend
      simpa using hpend
    have hlen : ph.children.length =
        (tlBy kdep none (annotate (List.replicate 10 0) blocks)).length := by
      rw [← hpend', List.length_map]
    have hflat' : ph.flatten.map nkey =
        nkey rootNode :: annotate (List.replicate 10 0) blocks := by
      rw [htop, hrest] at hflat
      rw [stackFlatKeys] at hflat
      simp only [List.reverse_cons, List.reverse_nil, List.nil_append] at hflat
      rw [flattenList_singleton] at hflat
      simpa using hflat
    rw [flatten_key_cons, hphkey] at hflat'
    have hchl : (Node.flattenList ph.children).map nkey =
        annotate (List.replicate 10 0) blocks := by
      exact (List.cons.inj hflat').2
    rw [hdr] at hbt
    by_cases hTL : (tlBy kdep none (annotate (List.replicate 10 0) blocks)).length = 1
    · rw [if_pos ⟨hph.1, hlen.trans hTL⟩] at hbt
      rcases hch : ph.children with _ | ⟨c, cs⟩
      · rw [hch] at hlen
        rw [← hlen] at hTL
        simp at hTL
      · rcases hcs : cs with _ | ⟨c2, cs2⟩
        · refine ⟨?_, fun h => absurd hTL h⟩
          intro _
          rw [hch, hcs] at hbt
          simp only [List.headD] at hbt
          rw [hch, hcs] at hchl
          rw [flattenList_singleton] at hchl
          rw [← hbt]
          exact hchl
        · rw [hch, hcs] at hlen
          rw [← hlen] at hTL
          simp only [List.length_cons] at hTL
          omega
    · rw [if_neg (fun hc => hTL (hlen.symm.trans hc.2))] at hbt
      subst hbt
      exact ⟨fun h => absurd h hTL, fun _ => ⟨hph, hpend', hchl⟩⟩
  | cons r rs =>
    obtain ⟨htop, hrest⟩ := List.cons.inj hdec
    have hrestA : st'.rest = rs ++ [ph] := hrest
    have hrsne : r :: rs ≠ [] := List.cons_ne_nil r rs
    have hdr : drain st'.top st'.rest =
        { ph with children := ph.children ++ [foldStack r rs] } := by
      rw [htop, hrestA]
      exact drain_through rs r ph
    have hfold : nkey (foldStack r rs) = nkey ((r :: rs).getLast hrsne) := by
      rw [foldStack_key, List.getLast_eq_getLastD]
    have hpend' : ph.children.map nkey ++ [nkey ((r :: rs).getLast hrsne)] =
        tlBy kdep none (annotate (List.replicate 10 0) blocks) := by
      rw [pendKeys_decomp hdec] at hpend
      rw [List.getLast?_eq_getLast _ hrsne] at hpend
      simpa using hpend
    have hch' : ({ ph with children := ph.children ++ [foldStack r rs] } : Node).children.map nkey =
        tlBy kdep none (annotate (List.replicate 10 0) blocks) := by
      show (ph.children ++ [foldStack r rs]).map nkey = _
      rw [List.map_append, List.map_singleton, hfold, hpend']
    have hflat3 : (Node.flattenList ph.children).map nkey ++ stackFlatKeys r rs =
        annotate (List.replicate 10 0) blocks := by
      rw [htop, hrestA, stackFlatKeys_bottom, flatten_key_cons, hphkey] at hflat
      rw [List.cons_append] at hflat
      exact (List.cons.inj hflat).2
    have hchl : (Node.flattenList (ph.children ++ [foldStack r rs])).map nkey =
        annotate (List.replicate 10 0) blocks := by
      rw [Node.flattenList_append, flattenList_singleton, List.map_append,
        foldStack_flatten_keys, hflat3]
    have hlen : (ph.children ++ [foldStack r rs]).length =
        (tlBy kdep none (annotate (List.replicate 10 0) blocks)).length := by
      have := congrArg List.length hch'
      simpa using this
    rw [hdr] at hbt
    by_cases hTL : (tlBy kdep none (annotate (List.replicate 10 0) blocks)).length = 1
    · rw [if_pos ⟨hph.1, hlen.trans hTL⟩] at hbt
      have hchnil : ph.children = [] := by
        have h1 := hlen.trans hTL
        simp only [List.length_append, List.length_cons, List.length_nil] at h1
        exact List.length_eq_zero.mp (by omega)
      refine ⟨?_, fun h => absurd hTL h⟩
      intro _
      rw [hchnil] at hbt
      simp only [List.nil_append, List.headD] at hbt
      rw [← hbt, foldStack_flatten_keys]
      rw [hchnil, Node.flattenList] at hflat3
      simpa using hflat3
    · rw [if_neg (fun hc => hTL (hlen.symm.trans hc.2))] at hbt
      subst hbt
      exact ⟨fun h => absurd h hTL, fun _ => ⟨IsPh_update hph _, hch', hchl⟩⟩


/-! ## Segmentation lemmas -/

theorem parse_heading_depth_pos {l : String} {d : Nat} {t : String}
    (h : parse_heading l = some (d, t)) : 1 ≤ d := by
  rw [parse_heading] at h
  by_cases hh : l.data.head? = some '#'
  swap
  · rw [if_neg hh] at h
    simp at h
  rw [if_pos hh] at h
  have hd : d = (l.data.takeWhile (fun c => c = '#')).length := by
    by_cases ht : rustTrim ⟨l.data.drop ((l.data.takeWhile (fun c => c = '#')).length)⟩ = ""
    · rw [if_pos ht] at h
      simp at h
    · rw [if_neg ht] at h
      exact ((Prod.mk.inj (Option.some.inj h)).1).symm
  have hgen : ∀ (xs : List Char), xs.head? = some '#' →
      1 ≤ (xs.takeWhile (fun c => c = '#')).length := by
    intro xs hxs
    cases xs with
    | nil => simp at hxs
    | cons c cs =>
      have hc : c = '#' := by simpa using hxs
      rw [List.takeWhile_cons, hc]
      simp
  rw [hd]
  exact hgen l.data hh

/-- Transfer of a depth property along the segmentation loop. -/
theorem segRun_blocks_prop (P : Nat → Prop) :
    ∀ (ls : List String) (st : SegState),
      (∀ l ∈ ls, ∀ d t, parse_heading l = some (d, t) → P d) →
      (∀ b ∈ st.blocks, P b.1) →
      (st.started = true → P st.current_depth) →
      (∀ b ∈ (segRun st ls).blocks, P b.1) ∧
      ((segRun st ls).started = true → P (segRun st ls).current_depth) := by
  intro ls
  induction ls with
  | nil =>
    intro st hls hb hc
    rw [segRun]
    exact ⟨hb, hc⟩
  | cons l ls ih =>
    intro st hls hb hc
    rw [segRun]
    refine ih (segLine st l) (fun m hm => hls m (by simp [hm])) ?_ ?_
    · intro b hbm
      rcases hp : parse_heading l with _ | ⟨d, t⟩
      · simp only [segLine, hp] at hbm
        by_cases hs : st.started = true
        · rw [if_pos hs] at hbm
          exact hb b hbm
        · rw [if_neg hs] at hbm
          exact hb b hbm
      · simp only [segLine, hp] at hbm
        by_cases hs : st.started = true
        · rw [if_pos hs, SegState.closeBlock] at hbm
          rcases List.mem_append.mp hbm with hbm | hbm
          · exact hb b hbm
          · rcases List.mem_singleton.mp hbm with rfl
            exact hc hs
        · rw [if_neg hs] at hbm
          exact hb b hbm
    · intro hstarted
      rcases hp : parse_heading l with _ | ⟨d, t⟩
      · simp only [segLine, hp] at hstarted ⊢
        by_cases hs : st.started = true
        · rw [if_pos hs]
          exact hc hs
        · rw [if_neg hs] at hstarted
          exact absurd hstarted hs
      · simp only [segLine, hp]
        exact hls l (by simp) d t hp

theorem segBlocks_prop (P : Nat → Prop) (doc md : String)
    (hls : ∀ l ∈ rustLines md, ∀ d t, parse_heading l = some (d, t) → P d) :
    ∀ b ∈ segBlocks doc md, P b.1 := by
  obtain ⟨hb, hc⟩ := segRun_blocks_prop P (rustLines md) (segInit doc) hls
    (by simp [segInit]) (by simp [segInit])
  intro b hbm
  rw [segBlocks, segFinal] at hbm
  by_cases hs : (segRun (segInit doc) (rustLines md)).started = true
  · rw [if_pos hs, SegState.closeBlock] at hbm
    rcases List.mem_append.mp hbm with hbm | hbm
    · exact hb b hbm
    · rcases List.mem_singleton.mp hbm with rfl
      exact hc hs
  · rw [if_neg hs] at hbm
    exact hb b hbm

theorem segBlocks_depth_pos (doc md : String) : ∀ b ∈ segBlocks doc md, 1 ≤ b.1 :=
  segBlocks_prop (fun d => 1 ≤ d) doc md
    (fun _ _ _ _ h => parse_heading_depth_pos h)

/-- The segmentation loop emits exactly one block per heading line. -/
theorem segRun_count :
    ∀ (ls : List String) (st : SegState),
      (segRun st ls).blocks.length + (if (segRun st ls).started = true then 1 else 0) =
        st.blocks.length + (if st.started = true then 1 else 0) +
          ls.countP (fun l => (parse_heading l).isSome) := by
  intro ls
  induction ls with
  | nil =>
    intro st
    rw [segRun]
    simp
  | cons l ls ih =>
    intro st
    rw [segRun, ih, List.countP_cons]
    rcases hp : parse_heading l with _ | ⟨d, t⟩
    · simp only [segLine, hp]
      by_cases hs : st.started = true
      · rw [if_pos hs]
        simp [hp, hs]
        all_goals omega
      · rw [if_neg hs]
        simp only [Bool.not_eq_true] at hs
        simp [hp, hs]
        all_goals omega
    · simp only [segLine, hp]
      by_cases hs : st.started = true
      · rw [if_pos hs, SegState.closeBlock]
        simp [hp, hs]
        all_goals omega
      · rw [if_neg hs]
        simp only [Bool.not_eq_true] at hs
        simp [hs, hp]
        all_goals omega

theorem segBlocks_length (doc md : String) :
    (segBlocks doc md).length = (rustLines md).countP (fun l => (parse_heading l).isSome) := by
  have h := segRun_count (rustLines md) (segInit doc)
  have h0 : (segInit doc).blocks = [] := rfl
  have h1 : (segInit doc).started = false := rfl
  rw [h0, h1] at h
  rw [segBlocks, segFinal]
  by_cases hs : (segRun (segInit doc) (rustLines md)).started = true
  · rw [if_pos hs, SegState.closeBlock, List.length_append]
    simp [hs] at h
    simp
    omega
  · rw [if_neg hs]
    simp only [Bool.not_eq_true] at hs
    simp [hs] at h
    omega

/-- Document title choice from the first heading. -/
def titleFrom (dflt : String) : Option (Nat × String) → String
  | some (d, t) => if d = 1 then t else dflt
  | none => dflt

theorem segRun_title_started :
    ∀ (ls : List String) (st : SegState), st.started = true →
      (segRun st ls).doc_title = st.doc_title := by
  intro ls
  induction ls with
  | nil =>
    intro st _
    rw [segRun]
  | cons l ls ih =>
    intro st hs
    rw [segRun]
    rcases hp : parse_heading l with _ | ⟨d, t⟩
    · have hline : segLine st l = if st.started = true
          then { st with current_body := st.current_body ++ [l] } else st := by
        simp only [segLine, hp]
      rw [hline, if_pos hs]
      exact ih _ hs
    · have h1 : (segLine st l).doc_title = st.doc_title := by
        simp only [segLine, hp]
        rw [if_neg (by simp [hs])]
      have h2 : (segLine st l).started = true := by
        simp only [segLine, hp]
      rw [ih _ h2, h1]

theorem segRun_title_unstarted :
    ∀ (ls : List String) (st : SegState), st.started = false →
      (segRun st ls).doc_title =
        titleFrom st.doc_title ((ls.filterMap parse_heading).head?) := by
  intro ls
  induction ls with
  | nil =>
    intro st _
    rw [segRun]
    rfl
  | cons l ls ih =>
    intro st hs
    rw [segRun, List.filterMap_cons]
    rcases hp : parse_heading l with _ | ⟨d, t⟩
    · have hline : segLine st l = st := by
        simp only [segLine, hp]
        rw [if_neg (by simp [hs])]
      rw [hline]
      exact ih st hs
    · have hstart : (segLine st l).started = true := by
        simp only [segLine, hp]
      have htitle : (segLine st l).doc_title = if d = 1 then t else st.doc_title := by
        simp only [segLine, hp]
        by_cases hd : d = 1
        · rw [if_pos ⟨hs, hd⟩, if_pos hd]
        · rw [if_neg (by simp [hd]), if_neg hd]
      rw [segRun_title_started ls _ hstart, htitle]
      rfl

theorem segTitle_char (doc md : String) :
    segTitle doc md = titleFrom doc (((rustLines md).filterMap parse_heading).head?) := by
  rw [segTitle, segFinal]
  exact segRun_title_unstarted (rustLines md) (segInit doc) rfl


/-! ## Characterization of `parse_markdown` -/

/-- The annotated keys that `build_tree` assigns to the blocks of a
document, in document order. -/
def assignedKeys (doc md : String) : List NKey :=
  annotate (List.replicate 10 0) (segBlocks doc md)

/-- The keys of the top-level sections of a document. -/
def topKeys (doc md : String) : List NKey :=
  tlBy kdep none (assignedKeys doc md)

theorem parse_markdown_parts {doc md : String} {t : DocumentTree}
    (hp : parse_markdown doc md = some t) :
    ∃ root, build_tree (segBlocks doc md) = some root ∧
      t.root = root ∧ t.title = segTitle doc md ∧ t.doc_id = doc ∧ t.description = none := by
  rw [parse_markdown] at hp
  rcases hb : build_tree (segBlocks doc md) with _ | root
  · rw [hb] at hp
    simp at hp
  · rw [hb] at hp
    simp only [Option.map_some', Option.some.injEq] at hp
    exact ⟨root, rfl, by rw [← hp, DocumentTree.new], by rw [← hp, DocumentTree.new],
      by rw [← hp, DocumentTree.new], by rw [← hp, DocumentTree.new]⟩

theorem parse_root_char {doc md : String} {t : DocumentTree}
    (hp : parse_markdown doc md = some t) :
    (∀ b ∈ segBlocks doc md, 1 ≤ b.1 ∧ b.1 ≤ 9) ∧
    ((topKeys doc md).length = 1 → t.root.flatten.map nkey = assignedKeys doc md) ∧
    ((topKeys doc md).length ≠ 1 → IsPh t.root ∧
      t.root.children.map nkey = topKeys doc md ∧
      (Node.flattenList t.root.children).map nkey = assignedKeys doc md) := by
  obtain ⟨root, hb, hroot, _, _, _⟩ := parse_markdown_parts hp
  obtain ⟨h9, hprom, hagg⟩ := build_tree_char (segBlocks_depth_pos doc md) hb
  subst hroot
  exact ⟨fun b hbm => ⟨segBlocks_depth_pos doc md b hbm, h9 b hbm⟩, hprom, hagg⟩

theorem assignedKeys_facts {doc md : String}
    (h9 : ∀ b ∈ segBlocks doc md, b.1 ≤ 9) :
    ∀ k ∈ assignedKeys doc md,
      k.1 ≠ "0" ∧ (splitDots k.1).length = kdep k ∧ 1 ≤ kdep k := by
  refine annotate_mem (by simp) ?_
  intro b hbm
  exact ⟨segBlocks_depth_pos doc md b hbm, h9 b hbm⟩

/-- The root id is the placeholder id exactly when the document does not
have a unique top-level section. -/
theorem parse_root_id {doc md : String} {t : DocumentTree}
    (hp : parse_markdown doc md = some t) :
    (t.root.node_id = "0" ↔ (topKeys doc md).length ≠ 1) := by
  obtain ⟨hb19, hprom, hagg⟩ := parse_root_char hp
  constructor
  · intro h0 h1
    have hflat := hprom h1
    have hane : assignedKeys doc md ≠ [] := by
      intro hnil
      rw [topKeys, hnil] at h1
      simp [tlBy] at h1
    have hhead : nkey t.root ∈ assignedKeys doc md := by
      rw [← hflat]
      rw [flatten_key_cons]
      simp
    have := (assignedKeys_facts (fun b hbm => (hb19 b hbm).2) _ hhead).1
    exact this (by rw [nkey] at this ⊢; exact h0)
  · intro h1
    exact (hagg h1).1.1

theorem allIdsList_eq_flattenList (ns : List Node) :
    Node.allIdsList ns = (Node.flattenList ns).map Node.node_id := by
  induction ns with
  | nil => rw [Node.allIdsList, Node.flattenList]; rfl
  | cons c cs ih =>
    rw [Node.allIdsList, Node.flattenList, List.map_append, ih, Node.all_ids_eq_flatten]

theorem map_node_id_eq_keys (ns : List Node) :
    ns.map Node.node_id = (ns.map nkey).map (fun k => k.1) := by
  rw [List.map_map]
  rfl

/-- All real node ids of a parsed tree, in document order. -/
theorem parse_all_node_ids {doc md : String} {t : DocumentTree}
    (hp : parse_markdown doc md = some t) :
    t.all_node_ids = (assignedKeys doc md).map (fun k => k.1) := by
  obtain ⟨hb19, hprom, hagg⟩ := parse_root_char hp
  rw [DocumentTree.all_node_ids]
  by_cases h0 : t.root.node_id = "0"
  · rw [if_pos h0]
    have h1 := (parse_root_id hp).mp h0
    rw [allIdsList_eq_flattenList, map_node_id_eq_keys, (hagg h1).2.2]
  · rw [if_neg h0]
    by_cases h1 : (topKeys doc md).length = 1
    · rw [Node.all_ids_eq_flatten, map_node_id_eq_keys, hprom h1]
    · exact absurd ((parse_root_id hp).mpr h1) h0

/-- All real nodes of a parsed tree carry the assigned keys. -/
theorem parse_all_nodes_keys {doc md : String} {t : DocumentTree}
    (hp : parse_markdown doc md = some t) :
    t.all_nodes.map nkey = assignedKeys doc md := by
  obtain ⟨hb19, hprom, hagg⟩ := parse_root_char hp
  rw [DocumentTree.all_nodes]
  by_cases h0 : t.root.node_id = "0"
  · rw [if_pos h0]
    exact (hagg ((parse_root_id hp).mp h0)).2.2
  · rw [if_neg h0]
    by_cases h1 : (topKeys doc md).length = 1
    · exact hprom h1
    · exact absurd ((parse_root_id hp).mpr h1) h0


/-! ## Serialization round-trip -/

theorem decodeOpt_encodeOpt (o : Option String) : decodeOpt (encodeOpt o) = some o := by
  cases o with
  | none => rfl
  | some s => rfl

theorem decodeNode_encodeNode : ∀ n : Node, decodeNode (encodeNode n) = some n := by
  intro n
  induction n using Node.strongInd with
  | step n ih =>
    have hlist : ∀ ns : List Node, (∀ c ∈ ns, decodeNode (encodeNode c) = some c) →
        decodeNodes (encodeNodes ns) = some ns := by
      intro ns hns
      induction ns with
      | nil => rw [encodeNodes, decodeNodes]
      | cons c cs ihc =>
        rw [encodeNodes, decodeNodes, hns c (by simp),
          ihc (fun d hd => hns d (by simp [hd]))]
    rcases n with ⟨i, ti, dp, tx, su, ch⟩
    rw [encodeNode, decodeNode, decodeOpt_encodeOpt, hlist ch ih]

theorem decodeTree_encodeTree (t : DocumentTree) : decodeTree (encodeTree t) = some t := by
  rw [encodeTree, decodeTree, decodeOpt_encodeOpt, decodeNode_encodeNode]

/-! ## Breadcrumb lemmas -/

theorem filterMap_length_isSome {α β : Type} (f : α → Option β) :
    ∀ l : List α, (∀ a ∈ l, (f a).isSome) → (l.filterMap f).length = l.length := by
  intro l
  induction l with
  | nil => intro _; rfl
  | cons a l ih =>
    intro h
    rw [List.filterMap_cons]
    rcases hf : f a with _ | b
    · have := h a (by simp)
      rw [hf] at this
      simp at this
    · rw [List.length_cons, ih (fun a ha => h a (by simp [ha])), List.length_cons]

/-- When the requested id is found and every strict prefix of it is
present, the breadcrumb has one entry per id component and ends with the
found node's title. -/
theorem build_breadcrumb_char {t : DocumentTree} {node_id : String} {n : Node}
    (hfind : t.find_node node_id = some n)
    (hpre : ∀ i ∈ List.range' 1 ((splitDots node_id).length - 1),
      (t.find_node (joinDots ((splitDots node_id).take i))).isSome) :
    (build_breadcrumb t node_id).length = (splitDots node_id).length ∧
    (build_breadcrumb t node_id).getLast? = some n.title := by
  have hlen1 : 1 ≤ (splitDots node_id).length := by
    rcases hsp : splitDots node_id with _ | ⟨p, ps⟩
    · exact absurd hsp (splitDots_ne_nil node_id)
    · simp
  have hrange : List.range' 1 (splitDots node_id).length =
      List.range' 1 ((splitDots node_id).length - 1) ++ [(splitDots node_id).length] := by
    have h1 := @List.range'_concat 1 1 ((splitDots node_id).length - 1)
    have h2 : (splitDots node_id).length - 1 + 1 = (splitDots node_id).length := by omega
    rw [h2] at h1
    rw [h1]
    congr 1
    simp
    omega
  have hlastf : (t.find_node (joinDots ((splitDots node_id).take (splitDots node_id).length))).map
      Node.title = some n.title := by
    rw [List.take_length, joinDots_splitDots, hfind]
    rfl
  rw [build_breadcrumb, hrange, List.filterMap_append]
  constructor
  · rw [List.length_append,
      filterMap_length_isSome _ _ (fun i hi => by
        have := hpre i hi
        rcases hf : t.find_node (joinDots ((splitDots node_id).take i)) with _ | m
        · rw [hf] at this
          simp at this
        · simp [hf]),
      List.length_range']
    have : (List.filterMap
        (fun i => (t.find_node (joinDots ((splitDots node_id).take i))).map Node.title)
        [(splitDots node_id).length]).length = 1 := by
      rw [List.filterMap_cons, hlastf]
      rfl
    rw [this]
    omega
  · have : List.filterMap
        (fun i => (t.find_node (joinDots ((splitDots node_id).take i))).map Node.title)
        [(splitDots node_id).length] = [n.title] := by
      rw [List.filterMap_cons, hlastf]
      rfl
    rw [this, List.getLast?_concat]

/-- Unconditionally, when the requested id is found the breadcrumb ends
with the found node's title: the loop's final prefix is the full id
itself, which the hypothesis says is present. -/
theorem build_breadcrumb_last {t : DocumentTree} {node_id : String} {n : Node}
    (hfind : t.find_node node_id = some n) :
    (build_breadcrumb t node_id).getLast? = some n.title := by
  have hlen1 : 1 ≤ (splitDots node_id).length := by
    rcases hsp : splitDots node_id with _ | ⟨p, ps⟩
    · exact absurd hsp (splitDots_ne_nil node_id)
    · simp
  have hrange : List.range' 1 (splitDots node_id).length =
      List.range' 1 ((splitDots node_id).length - 1) ++ [(splitDots node_id).length] := by
    have h1 := @List.range'_concat 1 1 ((splitDots node_id).length - 1)
    have h2 : (splitDots node_id).length - 1 + 1 = (splitDots node_id).length := by omega
    rw [h2] at h1
    rw [h1]
    congr 1
    simp
    omega
  have hlastf : (t.find_node (joinDots ((splitDots node_id).take (splitDots node_id).length))).map
      Node.title = some n.title := by
    rw [List.take_length, joinDots_splitDots, hfind]
    rfl
  rw [build_breadcrumb, hrange, List.filterMap_append]
  have hsing : List.filterMap
      (fun i => (t.find_node (joinDots ((splitDots node_id).take i))).map Node.title)
      [(splitDots node_id).length] = [n.title] := by
    rw [List.filterMap_cons, hlastf]
    rfl
  rw [hsing, List.getLast?_concat]


/-! ## Outline lemmas -/

theorem replicate_pair_flatten (k : Nat) (c : Char) :
    (List.replicate k [c, c]).flatten = List.replicate (2 * k) c := by
  induction k with
  | zero => rfl
  | succ k ih =>
    rw [List.replicate_succ, List.flatten_cons, ih]
    have h2 : 2 * (k + 1) = (2 * k) + 1 + 1 := by omega
    rw [h2, List.replicate_succ, List.replicate_succ]
    rfl

theorem outlineLine_eq_specLine (n : Node) : outlineLine n = specLine n := by
  rw [outlineLine, specLine, indentOf, replicate_pair_flatten]

theorem outline_node_eq (n : Node) (hz : ∀ m ∈ n.flatten, m.node_id ≠ "0") :
    outline_node n = n.flatten.map outlineLine := by
  induction n using Node.strongInd with
  | step n ih =>
    have hlist : ∀ ms : List Node,
        (∀ c ∈ ms, (∀ m ∈ c.flatten, m.node_id ≠ "0") →
          outline_node c = c.flatten.map outlineLine) →
        (∀ m ∈ Node.flattenList ms, m.node_id ≠ "0") →
        outlineList ms = (Node.flattenList ms).map outlineLine := by
      intro ms hms hzz
      induction ms with
      | nil => rw [outlineList, Node.flattenList]; rfl
      | cons c cs ihc =>
        rw [outlineList, Node.flattenList, List.map_append]
        rw [hms c (by simp) (fun m hm => hzz m (by
          rw [Node.flattenList]
          exact List.mem_append_left _ hm))]
        rw [ihc (fun d hd => hms d (by simp [hd])) (fun m hm => hzz m (by
          rw [Node.flattenList]
          exact List.mem_append_right _ hm))]
    have hn0 : n.node_id ≠ "0" := by
      refine hz n ?_
      rw [Node.flatten]
      simp
    rw [outline_node, if_neg hn0, Node.flatten, List.map_cons]
    rw [hlist n.children (fun c hc hzc => ih c hc hzc) (fun m hm => hz m (by
      rw [Node.flatten]
      exact List.mem_cons_of_mem _ hm))]
    rfl

theorem outlineList_eq (ns : List Node)
    (hz : ∀ m ∈ Node.flattenList ns, m.node_id ≠ "0") :
    outlineList ns = (Node.flattenList ns).map outlineLine := by
  induction ns with
  | nil => rw [outlineList, Node.flattenList]; rfl
  | cons c cs ih =>
    rw [outlineList, Node.flattenList, List.map_append]
    rw [outline_node_eq c (fun m hm => hz m (by
      rw [Node.flattenList]
      exact List.mem_append_left _ hm))]
    rw [ih (fun m hm => hz m (by
      rw [Node.flattenList]
      exact List.mem_append_right _ hm))]

/-! ## Top-level sections and totality -/

theorem topKeys_blocks (doc md : String) :
    (topKeys doc md).map (fun k => (k.2.1, kdep k, k.2.2.2)) =
      (topLevels (segBlocks doc md)).map (fun b => (b.2.1, b.1, b.2.2)) := by
  rw [topKeys, assignedKeys, topLevels]
  refine tlBy_map_eq ?_ none
  refine (annotate_forall2 (List.replicate 10 0) (segBlocks doc md)).imp ?_
  intro k b hk
  exact ⟨hk.1, by rw [hk.1, hk.2.1, hk.2.2]⟩

theorem topKeys_length (doc md : String) :
    (topKeys doc md).length = (topLevels (segBlocks doc md)).length := by
  have h := congrArg List.length (topKeys_blocks doc md)
  simpa using h

theorem parse_markdown_total (doc md : String)
    (h : ∀ l ∈ rustLines md, ∀ d t, parse_heading l = some (d, t) → d ≤ 9) :
    (parse_markdown doc md).isSome := by
  have h9 : ∀ b ∈ segBlocks doc md, b.1 ≤ 9 :=
    segBlocks_prop (fun d => d ≤ 9) doc md h
  rw [parse_markdown, build_tree]
  have htot := runBlocks_total (segBlocks doc md) buildInit h9
  rcases hrun : runBlocks buildInit (segBlocks doc md) with _ | st
  · rw [hrun] at htot
    simp at htot
  · rfl

/-! ## Remaining helper lemmas for the claims -/

theorem getD_replicate_zero (i : Nat) : (List.replicate 10 (0 : Nat)).getD i 0 = 0 := by
  rw [List.getD_eq_getElem?_getD, List.getElem?_replicate]
  by_cases h : i < 10
  · rw [if_pos h]
    rfl
  · rw [if_neg h]
    rfl

/-- Every non-placeholder node of a parsed tree carries an assigned key. -/
theorem parse_node_key {doc md : String} {t : DocumentTree} {n : Node}
    (hp : parse_markdown doc md = some t)
    (hmem : n ∈ t.root.flatten) (h0 : n.node_id ≠ "0") :
    nkey n ∈ assignedKeys doc md := by
  obtain ⟨hb19, hprom, hagg⟩ := parse_root_char hp
  by_cases hr : t.root.node_id = "0"
  · have h1 := (parse_root_id hp).mp hr
    rw [Node.flatten] at hmem
    rcases List.mem_cons.mp hmem with rfl | hmem
    · exact absurd hr h0
    · rw [← (hagg h1).2.2]
      exact List.mem_map_of_mem nkey hmem
  · have h1 := fun hno => hr ((parse_root_id hp).mpr hno)
    rw [← hprom (by by_contra hno; exact h1 hno)]
    exact List.mem_map_of_mem nkey hmem

/-- Decidable per-line check that a heading fits the counter array. -/
def headingOk (l : String) : Bool :=
  match parse_heading l with
  | some (d, _) => d ≤ 9
  | none => true

theorem headingOk_le9 {l : String} (h : headingOk l = true) :
    ∀ d t, parse_heading l = some (d, t) → d ≤ 9 := by
  intro d t hp
  rw [headingOk, hp] at h
  simpa using h

/-! ## The claims -/

/-- C1 (corrected): `parse_markdown` is total on every input whose
heading lines carry at most nine marker characters; the claim fails for
deeper headings, where `depth_counters[depth]` indexes out of bounds. -/
theorem claim_C1 (doc_id markdown : String)
    (h : ∀ l ∈ rustLines markdown, headingOk l = true) :
    (parse_markdown doc_id markdown).isSome := by
  exact parse_markdown_total doc_id markdown
    (fun l hl d t hp => headingOk_le9 (h l hl) d t hp)

theorem claim_C1_witness : (parse_markdown "d" "# A").isSome :=
  claim_C1 "d" "# A" (by decide)

/-- C1 counterexample: a heading line with ten markers makes the parser
panic (modelled by `none`), so it is not total over arbitrary text. -/
theorem claim_C1_cex : parse_markdown "d" "########## A" = none := by rfl

/-- C7 (confirmed): serializing a parsed tree and reading it back with
the matching deserializer restores the tree exactly, so the node-id set,
titles, and nesting structure all round-trip losslessly. -/
theorem claim_C7 (doc_id markdown : String) (t : DocumentTree)
    (hp : parse_markdown doc_id markdown = some t) :
    decodeTree (encodeTree t) = some t :=
  decodeTree_encodeTree t

/-- Witness tree: the parse of `"# A"`. -/
def w1tree : DocumentTree :=
  ⟨"d", "A", none, ⟨"1", "A", 1, "", none, []⟩⟩

theorem claim_C7_witness : decodeTree (encodeTree w1tree) = some w1tree :=
  claim_C7 "d" "# A" w1tree (by rfl)

/-- C9 (confirmed): `get_children` returns the id/title pairs of the
found node's children in stored order, and returns the empty sequence
both for a leaf and for a missing id, so the two cases are observably
identical at this call. -/
theorem claim_C9 (tree : DocumentTree) (node_id : String) :
    (∀ n, tree.find_node node_id = some n →
      get_children tree node_id = n.children.map (fun c => (c.node_id, c.title))) ∧
    (tree.find_node node_id = none ∨
        (∃ n, tree.find_node node_id = some n ∧ n.children = []) →
      get_children tree node_id = []) := by
  constructor
  · intro n hf
    rw [get_children, hf]
    rfl
  · intro h
    rcases h with h | ⟨n, hf, hleaf⟩
    · rw [get_children, h]
      rfl
    · rw [get_children, hf]
      simp [hleaf]

/-- Witness tree: the parse of `"# A\n## B"`. -/
def w3tree : DocumentTree :=
  ⟨"d", "A", none, ⟨"1", "A", 1, "", none, [⟨"1.1", "B", 2, "", none, []⟩]⟩⟩

theorem claim_C9_witness :
    get_children w3tree "1" = [("1.1", "B")] ∧
    get_children w3tree "1.1" = [] ∧
    get_children w3tree "missing" = [] := by
  refine ⟨?_, ?_, ?_⟩
  · rw [(claim_C9 w3tree "1").1 ⟨"1", "A", 1, "", none, [⟨"1.1", "B", 2, "", none, []⟩]⟩
      (by rw [w3tree, DocumentTree.find_node, Node.find]; rfl)]
    rfl
  · refine (claim_C9 w3tree "1.1").2 (Or.inr ⟨⟨"1.1", "B", 2, "", none, []⟩, ?_, rfl⟩)
    rw [w3tree, DocumentTree.find_node, Node.find]
    simp [Node.findInList, Node.find]
  · refine (claim_C9 w3tree "missing").2 (Or.inl ?_)
    rw [w3tree, DocumentTree.find_node, Node.find]
    simp [Node.findInList, Node.find]


/-- C5 (confirmed): the node id assigned to each block is the dot-join
of the per-depth counters at indices 1 through the block depth, with the
counter at the block depth incremented and deeper counters reset first;
skipped intermediate depths stay 0 and appear literally in the id. -/
theorem claim_C5 (doc_id markdown : String) (t : DocumentTree)
    (hp : parse_markdown doc_id markdown = some t) :
    t.all_nodes.map Node.node_id =
      specAssignedIds (fun i => 0) (segBlocks doc_id markdown) := by
  rw [map_node_id_eq_keys, parse_all_nodes_keys hp, assignedKeys]
  exact annotate_ids_spec (by simp) (fun i => (getD_replicate_zero i).symm)
    (parse_root_char hp).1

/-- Witness tree: the parse of `"# A\n### B"`, with the skipped level
visible as a literal zero in the id `1.0.1`. -/
def w5tree : DocumentTree :=
  ⟨"d", "A", none, ⟨"1", "A", 1, "", none, [⟨"1.0.1", "B", 3, "", none, []⟩]⟩⟩

theorem claim_C5_witness :
    w5tree.all_nodes.map Node.node_id =
      specAssignedIds (fun i => 0) (segBlocks "d" "# A\n### B") :=
  claim_C5 "d" "# A\n### B" w5tree (by rfl)

/-- C6 (confirmed): `all_node_ids` lists exactly the assigned ids in
document order, excluding the placeholder id, and its length equals the
number of heading lines of the input. -/
theorem claim_C6 (doc_id markdown : String) (t : DocumentTree)
    (hp : parse_markdown doc_id markdown = some t) :
    t.all_node_ids = (assignedKeys doc_id markdown).map (fun k => k.1) ∧
    t.all_node_ids.length =
      (rustLines markdown).countP (fun l => (parse_heading l).isSome) := by
  refine ⟨parse_all_node_ids hp, ?_⟩
  rw [parse_all_node_ids hp, List.length_map, assignedKeys, annotate_length,
    segBlocks_length]

/-- Witness tree: the parse of `"# A\n## B\n# C"`. -/
def w6tree : DocumentTree :=
  ⟨"doc1", "A", none,
    ⟨"0", "root", 0, "", none,
      [⟨"1", "A", 1, "", none, [⟨"1.1", "B", 2, "", none, []⟩]⟩,
       ⟨"2", "C", 1, "", none, []⟩]⟩⟩

theorem claim_C6_witness :
    w6tree.all_node_ids = (assignedKeys "doc1" "# A\n## B\n# C").map (fun k => k.1) ∧
    w6tree.all_node_ids.length =
      (rustLines "# A\n## B\n# C").countP (fun l => (parse_heading l).isSome) :=
  claim_C6 "doc1" "# A\n## B\n# C" w6tree (by rfl)

/-- C10 (confirmed): when the parsed root is the synthetic aggregator,
`find_node "0"` and `get_node "0"` both succeed and return it, with
depth 0 and the one-element breadcrumb holding its own title, although
`all_node_ids` and `all_nodes` exclude it. -/
theorem claim_C10 (doc_id markdown : String) (t : DocumentTree)
    (hp : parse_markdown doc_id markdown = some t)
    (h0 : t.root.node_id = "0") :
    t.find_node "0" = some t.root ∧
    get_node t "0" =
      some ⟨"0", t.root.title, t.root.text, t.root.summary, 0, [t.root.title]⟩ ∧
    t.root.depth = 0 ∧ t.root.title = "root" ∧
    "0" ∉ t.all_node_ids ∧ (∀ n ∈ t.all_nodes, n.node_id ≠ "0") := by
  have hph : IsPh t.root :=
    ((parse_root_char hp).2.2 ((parse_root_id hp).mp h0)).1
  have hfind : t.find_node "0" = some t.root := by
    rw [DocumentTree.find_node, Node.find, if_pos h0]
  have hsp : splitDots "0" = ["0"] := rfl
  have hjd : joinDots (List.take 1 ["0"]) = "0" := rfl
  have hbc : build_breadcrumb t "0" = [t.root.title] := by
    rw [build_breadcrumb]
    simp only [hsp, List.length_cons, List.length_nil]
    have hr : List.range' 1 1 = [1] := rfl
    rw [hr, List.filterMap_cons, hjd, hfind]
    rfl
  have hids : "0" ∉ t.all_node_ids := by
    rw [parse_all_node_ids hp]
    intro hm
    rcases List.mem_map.mp hm with ⟨k, hk, hk0⟩
    exact (assignedKeys_facts (fun b hb => ((parse_root_char hp).1 b hb).2) k hk).1 hk0
  refine ⟨hfind, ?_, hph.2.2.1, hph.2.1, hids, ?_⟩
  · rw [get_node, hbc, hfind]
    simp only [Option.map_some', Option.some.injEq]
    rw [h0, hph.2.2.1]
  · intro n hn
    have : nkey n ∈ assignedKeys doc_id markdown := by
      rw [← parse_all_nodes_keys hp]
      exact List.mem_map_of_mem nkey hn
    intro hzero
    refine (assignedKeys_facts (fun b hb => ((parse_root_char hp).1 b hb).2) _ this).1 ?_
    rw [nkey, hzero]

/-- Witness tree: the parse of the empty document. -/
def w0tree : DocumentTree :=
  ⟨"d", "d", none, ⟨"0", "root", 0, "", none, []⟩⟩

theorem claim_C10_witness :
    w0tree.find_node "0" = some w0tree.root ∧
    get_node w0tree "0" =
      some ⟨"0", w0tree.root.title, w0tree.root.text, w0tree.root.summary, 0,
        [w0tree.root.title]⟩ ∧
    w0tree.root.depth = 0 ∧ w0tree.root.title = "root" ∧
    "0" ∉ w0tree.all_node_ids ∧ (∀ n ∈ w0tree.all_nodes, n.node_id ≠ "0") :=
  claim_C10 "d" "" w0tree (by rfl) (by rfl)


/-- C2 counterexample: a single depth-2 heading satisfies "first heading
has depth greater than 1", yet the promotion rule makes the root that
section (id `0.1`), not the aggregator `0`. -/
theorem claim_C2_cex :
    (parse_markdown "d" "## A").map (fun t => t.root.node_id) = some "0.1" ∧
    ("0.1" : String) ≠ "0" ∧
    (parse_markdown "d" "# A\n# B").map (fun t => (t.root.node_id, t.title)) =
      some ("0", "A") ∧
    ("A" : String) ≠ "d" :=
  ⟨by rfl, by decide, by rfl, by decide⟩

/-- C2 (corrected): for every parsed tree, having at least two top-level
blocks forces the aggregator root `0`, and independently the document
title equals the caller-supplied id exactly when no depth-1 heading
comes first; a sole first heading of depth greater than 1 yields one
top-level block, so promotion removes the aggregator, and a leading
depth-1 heading makes the title that heading's own title. -/
theorem claim_C2 (doc_id markdown : String) (t : DocumentTree)
    (hp : parse_markdown doc_id markdown = some t) :
    (2 ≤ (topLevels (segBlocks doc_id markdown)).length → t.root.node_id = "0") ∧
    ((∀ p ∈ ((rustLines markdown).filterMap parse_heading).head?, p.1 ≠ 1) →
      t.title = doc_id) := by
  constructor
  · intro htwo
    refine (parse_root_id hp).mpr ?_
    rw [topKeys_length]
    omega
  · intro hfirst
    obtain ⟨root, _, _, htitle, _, _⟩ := parse_markdown_parts hp
    rw [htitle, segTitle_char]
    rcases hh : ((rustLines markdown).filterMap parse_heading).head? with _ | ⟨d, tt⟩
    · rfl
    · have hd1 : d ≠ 1 := by
        have := hfirst (d, tt) (by rw [hh]; rfl)
        simpa using this
      simp only [titleFrom]
      rw [if_neg hd1]

/-- Witness tree: the parse of `"## A\n## B"`. -/
def w2tree : DocumentTree :=
  ⟨"d", "d", none,
    ⟨"0", "root", 0, "", none,
      [⟨"0.1", "A", 2, "", none, []⟩, ⟨"0.2", "B", 2, "", none, []⟩]⟩⟩

theorem claim_C2_witness :
    w2tree.root.node_id = "0" ∧ w2tree.title = "d" := by
  have h := claim_C2 "d" "## A\n## B" w2tree (by rfl)
  refine ⟨h.1 (by decide), h.2 ?_⟩
  intro p hmem
  have hh : ((rustLines "## A\n## B").filterMap parse_heading).head? =
      some (2, "A") := by rfl
  rw [hh] at hmem
  have hpq : p = (2, "A") := by
    cases hmem
    rfl
  rw [hpq]
  decide

/-- C4 counterexample: the aggregator root's title is the literal string
`root`, not the empty string the claim states. -/
theorem claim_C4_cex :
    (parse_markdown "d" "# A\n# B").map (fun t => t.root.title) = some "root" ∧
    ("root" : String) ≠ "" :=
  ⟨by rfl, by decide⟩

/-- C4 (corrected): for input with at least two top-level sections, the
root is the synthetic aggregator with id `0`, title `"root"` (not empty),
empty text, and the top-level sections as its direct children in
document order. -/
theorem claim_C4 (doc_id markdown : String) (t : DocumentTree)
    (hp : parse_markdown doc_id markdown = some t)
    (htwo : 2 ≤ (topLevels (segBlocks doc_id markdown)).length) :
    t.root.node_id = "0" ∧ t.root.title = "root" ∧ t.root.text = "" ∧
    t.root.children.map nkey = topKeys doc_id markdown ∧
    t.root.children.map (fun c => (c.title, c.depth, c.text)) =
      (topLevels (segBlocks doc_id markdown)).map (fun b => (b.2.1, b.1, b.2.2)) := by
  have hne1 : (topKeys doc_id markdown).length ≠ 1 := by
    rw [topKeys_length]
    omega
  obtain ⟨hph, hch, _⟩ := (parse_root_char hp).2.2 hne1
  refine ⟨hph.1, hph.2.1, hph.2.2.2.1, hch, ?_⟩
  have hmm : t.root.children.map (fun c => (c.title, c.depth, c.text)) =
      (t.root.children.map nkey).map (fun k => (k.2.1, kdep k, k.2.2.2)) := by
    rw [List.map_map]
    rfl
  rw [hmm, hch, topKeys_blocks]

theorem claim_C4_witness :
    w2tree.root.node_id = "0" ∧ w2tree.root.title = "root" ∧ w2tree.root.text = "" ∧
    w2tree.root.children.map nkey = topKeys "d" "## A\n## B" ∧
    w2tree.root.children.map (fun c => (c.title, c.depth, c.text)) =
      (topLevels (segBlocks "d" "## A\n## B")).map (fun b => (b.2.1, b.1, b.2.2)) :=
  claim_C4 "d" "## A\n## B" w2tree (by rfl) (by decide)


/-- C3 counterexample: the depth jump in `"# A\n### B"` produces id
`1.0.1` with no node at prefix `1.0`, so the breadcrumb of that node
has two entries while its depth is three. -/
theorem claim_C3_cex :
    ((parse_markdown "d" "# A\n### B").bind (fun t => get_node t "1.0.1")).map
      (fun r => (r.breadcrumb, r.depth)) = some (["A", "B"], 3) ∧
    (["A", "B"] : List String).length ≠ 3 := by
  constructor
  · rw [show parse_markdown "d" "# A\n### B" = some w5tree from rfl]
    have hf1 : w5tree.find_node "1" =
        some ⟨"1", "A", 1, "", none, [⟨"1.0.1", "B", 3, "", none, []⟩]⟩ := by
      simp [w5tree, DocumentTree.find_node, Node.find, Node.findInList]
    have hf2 : w5tree.find_node "1.0" = none := by
      simp [w5tree, DocumentTree.find_node, Node.find, Node.findInList]
    have hf3 : w5tree.find_node "1.0.1" =
        some ⟨"1.0.1", "B", 3, "", none, []⟩ := by
      simp [w5tree, DocumentTree.find_node, Node.find, Node.findInList]
    have hb : build_breadcrumb w5tree "1.0.1" = ["A", "B"] := by
      have h1 : build_breadcrumb w5tree "1.0.1" =
          (List.range' 1 3).filterMap
            (fun i => (w5tree.find_node
              (joinDots ((["1", "0", "1"] : List String).take i))).map Node.title) := rfl
      rw [h1, show List.range' 1 3 = [1, 2, 3] from rfl]
      simp only [List.filterMap_cons, List.filterMap_nil]
      rw [show joinDots ((["1", "0", "1"] : List String).take 1) = "1" from rfl,
        show joinDots ((["1", "0", "1"] : List String).take 2) = "1.0" from rfl,
        show joinDots ((["1", "0", "1"] : List String).take 3) = "1.0.1" from rfl,
        hf1, hf2, hf3]
      rfl
    have hstep : (some w5tree).bind (fun t => get_node t "1.0.1") =
        get_node w5tree "1.0.1" := rfl
    have hg : get_node w5tree "1.0.1" =
        (w5tree.find_node "1.0.1").map (fun node =>
          { node_id := node.node_id
            title := node.title
            text := node.text
            summary := node.summary
            depth := node.depth
            breadcrumb := build_breadcrumb w5tree "1.0.1" }) := rfl
    rw [hstep, hg, hb, hf3]
    rfl
  · decide

/-- C3 (corrected): for every node of a parsed tree, the last breadcrumb
entry is unconditionally the found node's own title (the loop's final
prefix is the full id itself), and the breadcrumb length equals the
node's depth whenever every strict dot-prefix of its id is present in
the tree; ids produced by depth-skipping headings have missing prefixes,
which are skipped and shorten the breadcrumb below the depth. -/
theorem claim_C3 (doc_id markdown node_id : String) (t : DocumentTree) (n : Node)
    (hp : parse_markdown doc_id markdown = some t)
    (hfind : t.find_node node_id = some n)
    (h0 : n.node_id ≠ "0") :
    (get_node t node_id).map (fun r => r.breadcrumb.getLast?) = some (some n.title) ∧
    ((∀ i ∈ List.range' 1 ((splitDots node_id).length - 1),
        (t.find_node (joinDots ((splitDots node_id).take i))).isSome) →
      (get_node t node_id).map (fun r => r.breadcrumb.length) = some n.depth) := by
  constructor
  · rw [get_node, hfind]
    simp only [Option.map_some', Option.some.injEq]
    exact build_breadcrumb_last hfind
  · intro hpre
    obtain ⟨hlen, _⟩ := build_breadcrumb_char hfind hpre
    have hid : n.node_id = node_id := Node.find_id hfind
    have hmem : n ∈ t.root.flatten := Node.find_mem hfind
    have hkey := parse_node_key hp hmem h0
    have hdep : (splitDots n.node_id).length = n.depth :=
      (assignedKeys_facts (fun b hb => ((parse_root_char hp).1 b hb).2) _ hkey).2.1
    rw [get_node, hfind]
    simp only [Option.map_some', Option.some.injEq]
    rw [hlen, ← hid]
    exact hdep

theorem claim_C3_witness :
    (get_node w3tree "1.1").map (fun r => r.breadcrumb.getLast?) = some (some "B") ∧
    (get_node w3tree "1.1").map (fun r => r.breadcrumb.length) = some 2 := by
  have h := claim_C3 "d" "# A\n## B" "1.1" w3tree ⟨"1.1", "B", 2, "", none, []⟩
    (by rfl)
    (by simp [w3tree, DocumentTree.find_node, Node.find, Node.findInList])
    (by decide)
  refine ⟨h.1, h.2 ?_⟩
  intro i hi
  have hone : List.range' 1 ((splitDots "1.1").length - 1) = [1] := rfl
  rw [hone] at hi
  have hieq : i = 1 := by simpa using hi
  subst hieq
  rw [show joinDots ((splitDots "1.1").take 1) = "1" from rfl]
  simp [w3tree, DocumentTree.find_node, Node.find, Node.findInList]

/-- C8 counterexample: the aggregator's depth-2 children render with two
leading spaces, not at indentation level 0. -/
theorem claim_C8_cex :
    (parse_markdown "d" "## A\n## B").map get_tree_outline =
      some "  [0.1] A\n  [0.2] B" ∧
    ("  [0.1] A\n  [0.2] B" : String) ≠ "[0.1] A\n[0.2] B" := by
  constructor
  · rw [show parse_markdown "d" "## A\n## B" = some w2tree from rfl]
    simp only [Option.map_some', Option.some.injEq]
    rw [get_tree_outline]
    have h : outline_node w2tree.root = ["  [0.1] A", "  [0.2] B"] := by
      simp [w2tree, outline_node, outlineList, outlineLine, indentOf]
    rw [h]
    rfl
  · decide

/-- C8 (corrected): the outline renders exactly one line per real node
in preorder document order, each line indented two spaces per unit of
`depth - 1`, with the aggregator root never rendered but its children
rendered by the same rule (level 0 only when they have depth 1). -/
theorem claim_C8 (doc_id markdown : String) (t : DocumentTree)
    (hp : parse_markdown doc_id markdown = some t) :
    get_tree_outline t = specOutline t := by
  obtain ⟨hb19, hprom, hagg⟩ := parse_root_char hp
  have hAz : ∀ k ∈ assignedKeys doc_id markdown, k.1 ≠ "0" :=
    fun k hk => (assignedKeys_facts (fun b hb => (hb19 b hb).2) k hk).1
  rw [get_tree_outline, specOutline, specRealNodes]
  by_cases h0 : t.root.node_id = "0"
  · rw [if_pos h0]
    have h1 := (parse_root_id hp).mp h0
    have hkeys := (hagg h1).2.2
    have hz : ∀ m ∈ Node.flattenList t.root.children, m.node_id ≠ "0" := by
      intro m hm hmz
      have hk : nkey m ∈ assignedKeys doc_id markdown := by
        rw [← hkeys]
        exact List.mem_map_of_mem nkey hm
      exact hAz _ hk (by rw [nkey, hmz])
    rw [outline_node, if_pos h0, List.nil_append, outlineList_eq _ hz]
    congr 1
    exact List.map_congr_left (fun m _ => outlineLine_eq_specLine m)
  · rw [if_neg h0]
    have h1 : (topKeys doc_id markdown).length = 1 := by
      by_contra h
      exact h0 ((parse_root_id hp).mpr h)
    have hkeys := hprom h1
    have hz : ∀ m ∈ t.root.flatten, m.node_id ≠ "0" := by
      intro m hm hmz
      have hk : nkey m ∈ assignedKeys doc_id markdown := by
        rw [← hkeys]
        exact List.mem_map_of_mem nkey hm
      exact hAz _ hk (by rw [nkey, hmz])
    rw [outline_node_eq _ hz]
    congr 1
    exact List.map_congr_left (fun m _ => outlineLine_eq_specLine m)

theorem claim_C8_witness : get_tree_outline w6tree = specOutline w6tree :=
  claim_C8 "doc1" "# A\n## B\n# C" w6tree (by rfl)


end PageIndex
